import Mathlib

/-!
Verification of the exp3 DNS middleman and YouTube IP blocker.

This file gives a shallow embedding of the pure core of
`src/exp3_no_youtube/src/dns_middleman.py` (DNS message codec, SERVFAIL
synthesis, answer-IP extraction, event-line rendering) and
`src/exp3_no_youtube/src/youtube_ip_blocker.py` (event-line parsing, the log
tailer `consume_new_events`, and one iteration of the synchronizer main loop),
and proves the specified properties about them.

Conventions:
- a Python `bytes` buffer is `List Byte` with `Byte := Fin 256`;
- Python text is `List Char` (the log lines at issue are ASCII; `str.lower`
  and `str.strip` are modelled on ASCII characters);
- the fallible external world (pfctl invocations, upstream sockets) enters as
  explicit boolean/numeric parameters of the loop step;
- loops over a cursor are modelled with an explicit fuel argument that is
  instantiated with a provably sufficient bound (see `decodeGoF_stab`, which
  shows the bound is never hit).
-/

abbrev Byte := Fin 256

/-- Truncating byte constructor, the moral equivalent of packing a Nat into
one byte (used by the wire encoders below). -/
def byteOf (n : Nat) : Byte := ⟨n % 256, Nat.mod_lt _ (by norm_num)⟩

/-- Big-endian 16-bit read at index `i`, as done by `struct.unpack("!H", payload[i:i+2])`.
Out-of-range reads yield 0; every use site in the source is bounds-checked first. -/
def get16 (data : List Byte) (i : Nat) : Nat :=
  (data.getD i 0).val * 256 + (data.getD (i + 1) 0).val

/-- Translation of `make_servfail` from `dns_middleman.py`: keep the transaction
id (bytes 0-1) and question count (bytes 4-5), force flags `0x81 0x82`, zero the
answer/authority/additional counts, and copy everything from byte 12 on. -/
def make_servfail (query : List Byte) : Option (List Byte) :=
  if query.length < 12 then none
  else some (query.take 2 ++ [(0x81 : Byte), (0x82 : Byte)] ++ (query.drop 4).take 2
    ++ [0, 0, 0, 0, 0, 0] ++ query.drop 12)

section ListHelpers

variable {α : Type _}

/-- Reading an appended list past the prefix reads the suffix. -/
theorem getD_append_add (pre l : List α) (i : Nat) (d : α) :
    (pre ++ l).getD (pre.length + i) d = l.getD i d := by
  induction pre with
  | nil => simp
  | cons a pre ih =>
    simp only [List.cons_append, List.length_cons]
    have : pre.length + 1 + i = (pre.length + i) + 1 := by omega
    rw [this, List.getD_cons_succ, ih]

theorem take_append_of_le (pre l : List α) (n : Nat) (h : n ≤ pre.length) :
    (pre ++ l).take n = pre.take n := by
  rw [List.take_append_of_le_length h]

theorem drop_append_len (pre l : List α) : (pre ++ l).drop pre.length = l := by
  simp [List.drop_left]

end ListHelpers

/-- Twelve-byte destructuring of a DNS header plus payload rest. -/
theorem exists_header_split (q : List Byte) (h : 12 ≤ q.length) :
    ∃ b0 b1 b2 b3 b4 b5 b6 b7 b8 b9 b10 b11 rest,
      q = b0 :: b1 :: b2 :: b3 :: b4 :: b5 :: b6 :: b7 :: b8 :: b9 :: b10 :: b11 :: rest := by
  rcases q with _ | ⟨b0, q⟩; · simp at h
  rcases q with _ | ⟨b1, q⟩; · simp at h
  rcases q with _ | ⟨b2, q⟩; · simp at h
  rcases q with _ | ⟨b3, q⟩; · simp at h
  rcases q with _ | ⟨b4, q⟩; · simp at h
  rcases q with _ | ⟨b5, q⟩; · simp at h
  rcases q with _ | ⟨b6, q⟩; · simp at h
  rcases q with _ | ⟨b7, q⟩; · simp at h
  rcases q with _ | ⟨b8, q⟩; · simp at h
  rcases q with _ | ⟨b9, q⟩; · simp at h
  rcases q with _ | ⟨b10, q⟩; · simp at h
  rcases q with _ | ⟨b11, q⟩; · simp at h
  exact ⟨b0, b1, b2, b3, b4, b5, b6, b7, b8, b9, b10, b11, q, rfl⟩

/-- C2: for every query of at least 12 bytes, `make_servfail` returns a message
whose transaction id (bytes 0-1) and question count (bytes 4-5) equal the
query's, whose flags bytes are `0x81 0x82`, whose answer/authority/additional
counts are all zero, and whose bytes from offset 12 (the question section) are
preserved; for every query shorter than 12 bytes it returns none. -/
theorem make_servfail_header_c2 : ∀ q : List Byte,
    (q.length < 12 → make_servfail q = none) ∧
    (12 ≤ q.length → ∃ r, make_servfail q = some r ∧
      r.take 2 = q.take 2 ∧
      r.getD 2 0 = 0x81 ∧ r.getD 3 0 = 0x82 ∧
      (r.drop 4).take 2 = (q.drop 4).take 2 ∧
      (r.drop 6).take 6 = [0, 0, 0, 0, 0, 0] ∧
      r.drop 12 = q.drop 12) := by
  intro q
  constructor
  · intro h
    simp [make_servfail, h]
  · intro h
    obtain ⟨b0, b1, b2, b3, b4, b5, b6, b7, b8, b9, b10, b11, rest, rfl⟩ :=
      exists_header_split q h
    exact ⟨b0 :: b1 :: 0x81 :: 0x82 :: b4 :: b5 :: 0 :: 0 :: 0 :: 0 :: 0 :: 0 :: rest,
      by simp [make_servfail], rfl, rfl, rfl, rfl, rfl, rfl⟩

/-- C2 witness: a concrete 12-byte query with transaction id `0x12 0x34`. -/
theorem make_servfail_header_c2_witness :
    (12 : Nat) ≤ ([0x12, 0x34, 1, 0, 0, 1, 0, 0, 0, 0, 0, 0] : List Byte).length ∧
    ∃ r, make_servfail [0x12, 0x34, 1, 0, 0, 1, 0, 0, 0, 0, 0, 0] = some r ∧
      r.take 2 = ([0x12, 0x34, 1, 0, 0, 1, 0, 0, 0, 0, 0, 0] : List Byte).take 2 ∧
      r.getD 2 0 = 0x81 ∧ r.getD 3 0 = 0x82 ∧
      (r.drop 4).take 2 = (([0x12, 0x34, 1, 0, 0, 1, 0, 0, 0, 0, 0, 0] : List Byte).drop 4).take 2 ∧
      (r.drop 6).take 6 = [0, 0, 0, 0, 0, 0] ∧
      r.drop 12 = ([0x12, 0x34, 1, 0, 0, 1, 0, 0, 0, 0, 0, 0] : List Byte).drop 12 :=
  ⟨by decide, (make_servfail_header_c2 [0x12, 0x34, 1, 0, 0, 1, 0, 0, 0, 0, 0, 0]).2 (by decide)⟩

/-- C9: for every query of at least 12 bytes, the SERVFAIL response has exactly
the query's length and its bytes from offset 12 onward are identical to the
query's, so answer/authority/additional section bytes present in the query are
carried verbatim even though the header counts are forced to zero. -/
theorem make_servfail_tail_c9 : ∀ q r : List Byte, 12 ≤ q.length →
    make_servfail q = some r → r.length = q.length ∧ r.drop 12 = q.drop 12 := by
  intro q r h hr
  obtain ⟨b0, b1, b2, b3, b4, b5, b6, b7, b8, b9, b10, b11, rest, rfl⟩ :=
    exists_header_split q h
  simp only [make_servfail] at hr
  rw [if_neg (by simp)] at hr
  obtain rfl : _ = r := Option.some_injective _ hr
  constructor
  · simp
  · rfl

/-- C9 witness: a 13-byte query (12-byte header plus one trailing byte). -/
theorem make_servfail_tail_c9_witness :
    (12 : Nat) ≤ ([0, 0, 0, 0, 0, 1, 0, 0, 0, 0, 0, 0, 42] : List Byte).length ∧
    make_servfail [0, 0, 0, 0, 0, 1, 0, 0, 0, 0, 0, 0, 42]
      = some [0, 0, 0x81, 0x82, 0, 1, 0, 0, 0, 0, 0, 0, 42] ∧
    ([0, 0, 0x81, 0x82, 0, 1, 0, 0, 0, 0, 0, 0, 42] : List Byte).length
      = ([0, 0, 0, 0, 0, 1, 0, 0, 0, 0, 0, 0, 42] : List Byte).length ∧
    ([0, 0, 0x81, 0x82, 0, 1, 0, 0, 0, 0, 0, 0, 42] : List Byte).drop 12
      = ([0, 0, 0, 0, 0, 1, 0, 0, 0, 0, 0, 0, 42] : List Byte).drop 12 :=
  ⟨by decide, by decide,
    make_servfail_tail_c9 [0, 0, 0, 0, 0, 1, 0, 0, 0, 0, 0, 0, 42]
      [0, 0, 0x81, 0x82, 0, 1, 0, 0, 0, 0, 0, 0, 42] (by decide) (by decide)⟩


/-! ## DNS name decoding (`decode_dns_name` in `dns_middleman.py`) -/

/-- Result of one run of the `decode_dns_name` cursor loop.  `labels` are the
raw label byte strings in decoding order, `endOff` is the loop's
`end_offset` bookkeeping value and `cursor` its final cursor.  `reads` records
every buffer index the loop read (each `data[...]` access of the source) and
`jumps` every compression pointer it followed; both exist only so the
bounds/termination claims can be stated. -/
structure NameScan where
  labels : List (List Byte)
  endOff : Nat
  cursor : Nat
  reads : List Nat
  jumps : List Nat
deriving DecidableEq

/-- Fuel-indexed translation of the `while True` loop of `decode_dns_name`.
The loop state is `(cursor, end_offset, jumped, seen_pointers)`; `labels` is
the accumulator.  `decode_dns_name` instantiates the fuel with a bound proved
sufficient by `decodeGoF_stab`, so the fuel-exhausted branch is never taken. -/
def decodeGoF (data : List Byte) : Nat → Nat → Nat → Bool → List Nat →
    List (List Byte) → List Nat → List Nat → NameScan
  | 0, cursor, endOff, _, _, labels, reads, jumps =>
      ⟨labels, endOff, cursor, reads, jumps⟩
  | fuel + 1, cursor, endOff, jumped, seen, labels, reads, jumps =>
    if cursor < data.length then
      if (data.getD cursor 0).val = 0 then
        ⟨labels, if jumped then endOff else cursor + 1, cursor + 1, reads ++ [cursor], jumps⟩
      else if (data.getD cursor 0).val &&& 192 = 192 then
        if cursor + 1 < data.length then
          if (((data.getD cursor 0).val &&& 63) <<< 8) ||| (data.getD (cursor + 1) 0).val ∈ seen then
            ⟨labels, endOff, cursor, reads ++ [cursor, cursor + 1], jumps⟩
          else
            decodeGoF data fuel
              ((((data.getD cursor 0).val &&& 63) <<< 8) ||| (data.getD (cursor + 1) 0).val)
              (if jumped then endOff else cursor + 2) true
              (((((data.getD cursor 0).val &&& 63) <<< 8) ||| (data.getD (cursor + 1) 0).val) :: seen)
              labels (reads ++ [cursor, cursor + 1])
              (jumps ++ [(((data.getD cursor 0).val &&& 63) <<< 8) ||| (data.getD (cursor + 1) 0).val])
        else ⟨labels, endOff, cursor, reads ++ [cursor], jumps⟩
      else if (data.getD cursor 0).val &&& 192 ≠ 0 then
        ⟨labels, endOff, cursor, reads ++ [cursor], jumps⟩
      else
        if cursor + 1 + (data.getD cursor 0).val ≤ data.length then
          decodeGoF data fuel (cursor + 1 + (data.getD cursor 0).val)
            (if jumped then endOff else cursor + 1 + (data.getD cursor 0).val) jumped seen
            (labels ++ [(data.drop (cursor + 1)).take (data.getD cursor 0).val])
            (reads ++ cursor :: (List.range (data.getD cursor 0).val).map (fun i => cursor + 1 + i))
            jumps
        else ⟨labels, endOff, cursor + 1, reads ++ [cursor], jumps⟩
    else ⟨labels, endOff, cursor, reads, jumps⟩

/-- ASCII lower-casing of one byte (`str.lower` restricted to ASCII; DNS
labels on the wire are ASCII). -/
def lowerByte (b : Byte) : Byte :=
  if h : 65 ≤ b.val ∧ b.val ≤ 90 then ⟨b.val + 32, by omega⟩ else b

/-- Strip leading and trailing dot bytes, as `str.strip(".")` does. -/
def stripDotBytes (s : List Byte) : List Byte :=
  ((s.dropWhile (fun b => b = 46)).reverse.dropWhile (fun b => b = 46)).reverse

/-- Name assembly at the end of `decode_dns_name`:
`".".join(part for part in labels if part).strip(".").lower()`, kept at the
byte level (each label is its raw bytes). -/
def nameFromLabels (labels : List (List Byte)) : List Byte :=
  (stripDotBytes (List.intercalate [46] (labels.filter (fun l => l ≠ [])))).map lowerByte

/-- Fuel bound used by `decode_dns_name`; `decodeGoF_stab` proves it sufficient. -/
def nameFuel (data : List Byte) : Nat := 16385 * (data.length + 1)

/-- Translation of `decode_dns_name`: run the loop, then apply the
`if end_offset <= offset: end_offset = cursor` fallback and assemble the name. -/
def decode_dns_name (data : List Byte) (offset : Nat) : List Byte × Nat :=
  (nameFromLabels (decodeGoF data (nameFuel data) offset offset false [] [] [] []).labels,
   if (decodeGoF data (nameFuel data) offset offset false [] [] [] []).endOff ≤ offset then
     (decodeGoF data (nameFuel data) offset offset false [] [] [] []).cursor
   else (decodeGoF data (nameFuel data) offset offset false [] [] [] []).endOff)

/-- Translation of `extract_query_domain`: header length and question-count
guards, then the decoded question name at offset 12, with `domain or None`
mapping an empty name to `none`. -/
def extract_query_domain (payload : List Byte) : Option (List Byte) :=
  if payload.length < 12 then none
  else if get16 payload 4 = 0 then none
  else if (decode_dns_name payload 12).1 = [] then none
  else some (decode_dns_name payload 12).1

/-- C10: `extract_query_domain` never returns the empty string: besides
returning none for a payload shorter than 12 bytes or a zero question count,
it returns none whenever the question name at offset 12 decodes to an empty
name, so every returned domain is non-empty. -/
theorem extract_query_domain_nonempty_c10 : ∀ payload : List Byte,
    (payload.length < 12 → extract_query_domain payload = none) ∧
    (get16 payload 4 = 0 → extract_query_domain payload = none) ∧
    ((decode_dns_name payload 12).1 = [] → extract_query_domain payload = none) ∧
    (∀ d, extract_query_domain payload = some d → d ≠ []) := by
  intro payload
  unfold extract_query_domain
  refine ⟨fun h => by simp [h], fun h => by simp [h], fun h => ?_, fun d hd => ?_⟩
  · split_ifs <;> rfl
  · split_ifs at hd
    all_goals first
      | exact Option.noConfusion hd
      | (injection hd with hx; rw [← hx]; assumption)

/-! ## Termination and safety of the name decoder (C3) -/

/-- Measure for the decoder loop: distinct compression-pointer values not yet
visited (there are at most `2^14`), weighted by the buffer length, plus the
remaining distance of the cursor to the end of the buffer. -/
def seenMeasure (L : Nat) (seen : List Nat) (cursor : Nat) : Nat :=
  (Finset.range 16384 \ seen.toFinset).card * (L + 1) + (L + 1 - cursor)

/-- A compression pointer is a 14-bit value. -/
theorem ptr_lt_16384 (len : Nat) (b : Byte) : ((len &&& 63) <<< 8) ||| b.val < 16384 := by
  have h1 : len &&& 63 < 2 ^ 6 := Nat.lt_succ_of_le Nat.and_le_right
  have h2 : b.val < 2 ^ 8 := b.isLt
  have h3 := Nat.append_lt h2 h1
  norm_num at h3
  exact h3

/-- With the cursor at or past the end of the buffer the loop breaks at once,
whatever the fuel. -/
theorem decodeGoF_oob (data : List Byte) (fuel cursor endOff : Nat) (jumped : Bool)
    (seen : List Nat) (labels : List (List Byte)) (reads jumps : List Nat)
    (h : data.length ≤ cursor) :
    decodeGoF data fuel cursor endOff jumped seen labels reads jumps
      = ⟨labels, endOff, cursor, reads, jumps⟩ := by
  cases fuel with
  | zero => rfl
  | succ f =>
    simp only [decodeGoF]
    rw [if_neg (Nat.not_lt.2 h)]

theorem seenMeasure_jump (L : Nat) (seen : List Nat) (cursor ptr : Nat)
    (hcur : cursor < L) (hptr : ptr < 16384) (hnew : ptr ∉ seen) :
    seenMeasure L (ptr :: seen) ptr < seenMeasure L seen cursor := by
  unfold seenMeasure
  have hmem : ptr ∈ Finset.range 16384 \ seen.toFinset := by
    simp [Finset.mem_sdiff, Finset.mem_range, hptr, List.mem_toFinset, hnew]
  have hpos : 1 ≤ (Finset.range 16384 \ seen.toFinset).card :=
    Finset.card_pos.2 ⟨ptr, hmem⟩
  have hcard : (Finset.range 16384 \ (ptr :: seen).toFinset).card
      = (Finset.range 16384 \ seen.toFinset).card - 1 := by
    rw [List.toFinset_cons, Finset.sdiff_insert, Finset.card_erase_of_mem hmem]
  rw [hcard]
  have h1 : (Finset.range 16384 \ seen.toFinset).card - 1 + 1
      = (Finset.range 16384 \ seen.toFinset).card := Nat.succ_pred_eq_of_pos hpos
  calc ((Finset.range 16384 \ seen.toFinset).card - 1) * (L + 1) + (L + 1 - ptr)
      ≤ ((Finset.range 16384 \ seen.toFinset).card - 1) * (L + 1) + (L + 1) :=
        Nat.add_le_add_left (by omega) _
    _ = ((Finset.range 16384 \ seen.toFinset).card - 1 + 1) * (L + 1) :=
        (Nat.succ_mul _ _).symm
    _ = (Finset.range 16384 \ seen.toFinset).card * (L + 1) := by rw [h1]
    _ < (Finset.range 16384 \ seen.toFinset).card * (L + 1) + (L + 1 - cursor) :=
        Nat.lt_add_of_pos_right (by omega)

theorem seenMeasure_label (L : Nat) (seen : List Nat) (cursor len : Nat)
    (hcur : cursor < L) :
    seenMeasure L seen (cursor + 1 + len) < seenMeasure L seen cursor := by
  unfold seenMeasure
  exact Nat.add_lt_add_left (by omega) _

theorem seenMeasure_pos (L : Nat) (seen : List Nat) (cursor : Nat) (hcur : cursor < L) :
    1 ≤ seenMeasure L seen cursor := by
  unfold seenMeasure
  have ht : 1 ≤ L + 1 - cursor := by omega
  exact le_trans ht (Nat.le_add_left _ _)

theorem seenMeasure_oob_of_zero (L : Nat) (seen : List Nat) (cursor : Nat)
    (h : seenMeasure L seen cursor = 0) : L ≤ cursor := by
  unfold seenMeasure at h
  have h2 : L + 1 - cursor = 0 := Nat.eq_zero_of_add_eq_zero_left h
  omega

/-- Fuel stabilization: any two fuels at least the measure give the same scan.
This is the termination argument for the `decode_dns_name` loop: each
compression-pointer jump visits a fresh 14-bit pointer value and plain labels
strictly advance the cursor, so the loop completes within the measure. -/
theorem decodeGoF_stab_aux : ∀ n (data : List Byte) (f1 f2 cursor endOff : Nat)
    (jumped : Bool) (seen : List Nat) (labels : List (List Byte)) (reads jumps : List Nat),
    seenMeasure data.length seen cursor ≤ n →
    seenMeasure data.length seen cursor ≤ f1 →
    seenMeasure data.length seen cursor ≤ f2 →
    decodeGoF data f1 cursor endOff jumped seen labels reads jumps
      = decodeGoF data f2 cursor endOff jumped seen labels reads jumps := by
  intro n
  induction n with
  | zero =>
    intro data f1 f2 cursor endOff jumped seen labels reads jumps hn h1 h2
    have hcur : data.length ≤ cursor :=
      seenMeasure_oob_of_zero _ _ _ (Nat.le_zero.mp hn)
    rw [decodeGoF_oob _ _ _ _ _ _ _ _ _ hcur, decodeGoF_oob _ _ _ _ _ _ _ _ _ hcur]
  | succ n ih =>
    intro data f1 f2 cursor endOff jumped seen labels reads jumps hn h1 h2
    by_cases hc : cursor < data.length
    · have hmu : 1 ≤ seenMeasure data.length seen cursor := seenMeasure_pos _ _ _ hc
      obtain ⟨g1, rfl⟩ : ∃ g, f1 = g + 1 := ⟨f1 - 1, by omega⟩
      obtain ⟨g2, rfl⟩ : ∃ g, f2 = g + 1 := ⟨f2 - 1, by omega⟩
      simp only [decodeGoF]
      rw [if_pos hc, if_pos hc]
      by_cases hz : (data.getD cursor 0).val = 0
      · rw [if_pos hz, if_pos hz]
      · rw [if_neg hz, if_neg hz]
        by_cases hp : (data.getD cursor 0).val &&& 192 = 192
        · rw [if_pos hp, if_pos hp]
          by_cases hc1 : cursor + 1 < data.length
          · rw [if_pos hc1, if_pos hc1]
            by_cases hs : (((data.getD cursor 0).val &&& 63) <<< 8)
                ||| (data.getD (cursor + 1) 0).val ∈ seen
            · rw [if_pos hs, if_pos hs]
            · rw [if_neg hs, if_neg hs]
              have hlt := seenMeasure_jump data.length seen cursor _ hc
                (ptr_lt_16384 _ _) hs
              exact ih data g1 g2 _ _ true _ labels _ _
                (by omega) (by omega) (by omega)
          · rw [if_neg hc1, if_neg hc1]
        · rw [if_neg hp, if_neg hp]
          by_cases ho : (data.getD cursor 0).val &&& 192 = 0
          · rw [if_neg (not_not_intro ho), if_neg (not_not_intro ho)]
            by_cases hf : cursor + 1 + (data.getD cursor 0).val ≤ data.length
            · rw [if_pos hf, if_pos hf]
              have hlt := seenMeasure_label data.length seen cursor
                (data.getD cursor 0).val hc
              exact ih data g1 g2 _ _ jumped seen _ _ _
                (by omega) (by omega) (by omega)
            · rw [if_neg hf, if_neg hf]
          · rw [if_pos ho, if_pos ho]
    · have hcur := Nat.le_of_not_lt hc
      rw [decodeGoF_oob _ _ _ _ _ _ _ _ _ hcur, decodeGoF_oob _ _ _ _ _ _ _ _ _ hcur]

/-- The fuel used by `decode_dns_name` dominates the initial measure. -/
theorem seenMeasure_init_le (data : List Byte) (offset : Nat) :
    seenMeasure data.length [] offset ≤ nameFuel data := by
  unfold seenMeasure nameFuel
  have hcard : (Finset.range 16384 \ ([] : List Nat).toFinset).card = 16384 := by
    simp
  rw [hcard]
  have : (16384 : Nat) * (data.length + 1) + (data.length + 1)
      = 16385 * (data.length + 1) := by ring
  omega

/-- Every buffer index the decoder loop reads is within bounds: each access in
the source is guarded by an explicit length check. -/
theorem decodeGoF_reads_lt : ∀ (fuel : Nat) (data : List Byte) (cursor endOff : Nat)
    (jumped : Bool) (seen : List Nat) (labels : List (List Byte)) (reads jumps : List Nat),
    (∀ i ∈ reads, i < data.length) →
    ∀ i ∈ (decodeGoF data fuel cursor endOff jumped seen labels reads jumps).reads,
      i < data.length := by
  intro fuel
  induction fuel with
  | zero =>
    intro data cursor endOff jumped seen labels reads jumps h i hi
    exact h i hi
  | succ n ih =>
    intro data cursor endOff jumped seen labels reads jumps h i hi
    simp only [decodeGoF] at hi
    by_cases hc : cursor < data.length
    · rw [if_pos hc] at hi
      by_cases hz : (data.getD cursor 0).val = 0
      · rw [if_pos hz] at hi
        simp only [List.mem_append, List.mem_singleton] at hi
        rcases hi with hi | rfl
        · exact h i hi
        · exact hc
      · rw [if_neg hz] at hi
        by_cases hp : (data.getD cursor 0).val &&& 192 = 192
        · rw [if_pos hp] at hi
          by_cases hc1 : cursor + 1 < data.length
          · rw [if_pos hc1] at hi
            by_cases hs : (((data.getD cursor 0).val &&& 63) <<< 8)
                ||| (data.getD (cursor + 1) 0).val ∈ seen
            · rw [if_pos hs] at hi
              simp only [List.mem_append, List.mem_cons, List.not_mem_nil,
                or_false] at hi
              rcases hi with hi | rfl | rfl
              · exact h i hi
              · exact hc
              · exact hc1
            · rw [if_neg hs] at hi
              refine ih data _ _ true _ labels _ _ ?_ i hi
              intro j hj
              simp only [List.mem_append, List.mem_cons, List.not_mem_nil,
                or_false] at hj
              rcases hj with hj | rfl | rfl
              · exact h j hj
              · exact hc
              · exact hc1
          · rw [if_neg hc1] at hi
            simp only [List.mem_append, List.mem_singleton] at hi
            rcases hi with hi | rfl
            · exact h i hi
            · exact hc
        · rw [if_neg hp] at hi
          by_cases ho : (data.getD cursor 0).val &&& 192 = 0
          · rw [if_neg (not_not_intro ho)] at hi
            by_cases hf : cursor + 1 + (data.getD cursor 0).val ≤ data.length
            · rw [if_pos hf] at hi
              refine ih data _ _ jumped seen _ _ _ ?_ i hi
              intro j hj
              simp only [List.mem_append, List.mem_cons, List.mem_map,
                List.mem_range] at hj
              rcases hj with hj | rfl | ⟨k, hk, rfl⟩
              · exact h j hj
              · exact hc
              · omega
            · rw [if_neg hf] at hi
              simp only [List.mem_append, List.mem_singleton] at hi
              rcases hi with hi | rfl
              · exact h i hi
              · exact hc
          · rw [if_pos ho] at hi
            simp only [List.mem_append, List.mem_singleton] at hi
            rcases hi with hi | rfl
            · exact h i hi
            · exact hc
    · rw [if_neg hc] at hi
      exact h i hi

/-- Each distinct compression-pointer value is followed at most once: the list
of followed pointers has no duplicates, because a pointer is only followed
when it is not in the visited set, and is added to that set when followed. -/
theorem decodeGoF_jumps_nodup : ∀ (fuel : Nat) (data : List Byte) (cursor endOff : Nat)
    (jumped : Bool) (seen : List Nat) (labels : List (List Byte)) (reads jumps : List Nat),
    jumps.Nodup → (∀ j ∈ jumps, j ∈ seen) →
    (decodeGoF data fuel cursor endOff jumped seen labels reads jumps).jumps.Nodup := by
  intro fuel
  induction fuel with
  | zero =>
    intro data cursor endOff jumped seen labels reads jumps hnd hsub
    exact hnd
  | succ n ih =>
    intro data cursor endOff jumped seen labels reads jumps hnd hsub
    simp only [decodeGoF]
    by_cases hc : cursor < data.length
    · rw [if_pos hc]
      by_cases hz : (data.getD cursor 0).val = 0
      · rw [if_pos hz]; exact hnd
      · rw [if_neg hz]
        by_cases hp : (data.getD cursor 0).val &&& 192 = 192
        · rw [if_pos hp]
          by_cases hc1 : cursor + 1 < data.length
          · rw [if_pos hc1]
            by_cases hs : (((data.getD cursor 0).val &&& 63) <<< 8)
                ||| (data.getD (cursor + 1) 0).val ∈ seen
            · rw [if_pos hs]; exact hnd
            · rw [if_neg hs]
              refine ih data _ _ true _ labels _ _ ?_ ?_
              · rw [List.nodup_append]
                refine ⟨hnd, List.nodup_singleton _, ?_⟩
                intro a ha hb
                rw [List.mem_singleton] at hb
                subst hb
                exact hs (hsub _ ha)
              · intro j hj
                simp only [List.mem_append, List.mem_singleton] at hj
                rcases hj with hj | rfl
                · exact List.mem_cons_of_mem _ (hsub j hj)
                · exact List.mem_cons_self _ _
          · rw [if_neg hc1]; exact hnd
        · rw [if_neg hp]
          by_cases ho : (data.getD cursor 0).val &&& 192 = 0
          · rw [if_neg (not_not_intro ho)]
            by_cases hf : cursor + 1 + (data.getD cursor 0).val ≤ data.length
            · rw [if_pos hf]
              exact ih data _ _ jumped seen _ _ _ hnd hsub
            · rw [if_neg hf]; exact hnd
          · rw [if_pos ho]; exact hnd
    · rw [if_neg hc]; exact hnd

/-- A two-byte buffer whose single field is a compression pointer to itself. -/
def selfPointerBuf : List Byte := [192, 0]

/-- C3: the decoder terminates and is safe for every buffer and offset.
Formally: (i) the decoding loop stabilizes at the chosen fuel bound, i.e.
adding any extra fuel never changes the scan (the loop always completes
within the bound, so it terminates and never truncates); (ii) every index it
reads is strictly within the buffer; (iii) the followed compression-pointer
values are pairwise distinct (each distinct pointer value is followed at most
once, a revisited pointer aborts decoding); and (iv) on the concrete
self-referential pointer buffer it returns the empty partial name with end
offset 2 instead of looping. -/
theorem decode_dns_name_safe_c3 :
    (∀ (data : List Byte) (offset extra : Nat),
      decodeGoF data (nameFuel data + extra) offset offset false [] [] [] []
        = decodeGoF data (nameFuel data) offset offset false [] [] [] []) ∧
    (∀ (data : List Byte) (offset : Nat),
      ∀ i ∈ (decodeGoF data (nameFuel data) offset offset false [] [] [] []).reads,
        i < data.length) ∧
    (∀ (data : List Byte) (offset : Nat),
      (decodeGoF data (nameFuel data) offset offset false [] [] [] []).jumps.Nodup) ∧
    decode_dns_name selfPointerBuf 0 = ([], 2) := by
  refine ⟨?_, ?_, ?_, by decide⟩
  · intro data offset extra
    exact decodeGoF_stab_aux (seenMeasure data.length [] offset) data _ _ _ _ _ _ _ _ _
      le_rfl (le_trans (seenMeasure_init_le data offset) (by omega))
      (seenMeasure_init_le data offset)
  · intro data offset
    exact decodeGoF_reads_lt _ data _ _ _ _ _ _ _ (by simp)
  · intro data offset
    exact decodeGoF_jumps_nodup _ data _ _ _ _ _ _ _ List.nodup_nil (by simp)

/-- C3 witness: on the self-referential pointer buffer the loop reads index 0,
which is indeed within the two-byte buffer. -/
theorem decode_dns_name_safe_c3_witness :
    0 ∈ (decodeGoF selfPointerBuf (nameFuel selfPointerBuf) 0 0 false [] [] [] []).reads ∧
    0 < selfPointerBuf.length :=
  ⟨by decide, decode_dns_name_safe_c3.2.1 selfPointerBuf 0 0 (by decide)⟩

/-! ## Answer IP extraction (`extract_answer_ips` in `dns_middleman.py`) -/

/-- Decimal digits of `n`, most significant first; the fuel `n + 1` always
suffices since `n / 10 < n` for `n ≥ 10`. -/
def natDigitsGo : Nat → Nat → List Nat
  | 0, _ => []
  | f + 1, n => if n < 10 then [n] else natDigitsGo f (n / 10) ++ [n % 10]

/-- ASCII decimal rendering of a Nat. -/
def natDecBytes (n : Nat) : List Byte :=
  (natDigitsGo (n + 1) n).map (fun d => byteOf (48 + d))

/-- `socket.inet_ntoa`: dotted-quad text of a 4-byte rdata. -/
def renderIPv4 (rdata : List Byte) : List Byte :=
  natDecBytes (rdata.getD 0 0).val ++ [46] ++ natDecBytes (rdata.getD 1 0).val
    ++ [46] ++ natDecBytes (rdata.getD 2 0).val ++ [46] ++ natDecBytes (rdata.getD 3 0).val

/-- Hex digits of `n`, most significant first. -/
def natHexDigitsGo : Nat → Nat → List Nat
  | 0, _ => []
  | f + 1, n => if n < 16 then [n] else natHexDigitsGo f (n / 16) ++ [n % 16]

/-- Lowercase hex digit byte. -/
def hexDigitByte (d : Nat) : Byte := if d < 10 then byteOf (48 + d) else byteOf (87 + d)

/-- Minimal lowercase hex rendering of a Nat. -/
def natHexBytes (n : Nat) : List Byte := (natHexDigitsGo (n + 1) n).map hexDigitByte

/-- Leftmost-longest run of zero 16-bit groups, kept only when at least two
groups long (the candidate selection of the BSD `inet_ntop6` the Python
`socket.inet_ntop` delegates to). -/
def bestZeroRun (ws : List Nat) : Option (Nat × Nat) :=
  match ws.foldl (fun st w =>
      match st with
      | (best, cur, i) =>
        if w = 0 then
          match cur with
          | none => (best, some (i, 1), i + 1)
          | some (b, l) => (best, some (b, l + 1), i + 1)
        else
          match cur with
          | none => (best, none, i + 1)
          | some c =>
            match best with
            | none => (some c, none, i + 1)
            | some (bb, bl) => (if bl < c.2 then some c else some (bb, bl), none, i + 1))
    ((none, none, 0) : Option (Nat × Nat) × Option (Nat × Nat) × Nat) with
  | (best, cur, _) =>
    match cur, best with
    | some c, none => if c.2 < 2 then none else some c
    | some c, some (bb, bl) =>
        if bl < c.2 then (if c.2 < 2 then none else some c)
        else (if bl < 2 then none else some (bb, bl))
    | none, some (bb, bl) => if bl < 2 then none else some (bb, bl)
    | none, none => none

/-- Is group `i` inside the compressed run? -/
def runCovers (best : Option (Nat × Nat)) (i : Nat) : Bool :=
  match best with
  | some (b, l) => decide (b ≤ i ∧ i < b + l)
  | none => false

/-- Is group `i` the start of the compressed run? -/
def runBase (best : Option (Nat × Nat)) (i : Nat) : Bool :=
  match best with
  | some (b, _) => decide (i = b)
  | none => false

/-- The embedded-IPv4 special case of `inet_ntop6`. -/
def v4Embedded (best : Option (Nat × Nat)) (ws : List Nat) : Bool :=
  match best with
  | some (b, l) =>
      decide (b = 0 ∧ (l = 6 ∨ (l = 7 ∧ ws.getD 7 0 ≠ 1) ∨ (l = 5 ∧ ws.getD 5 0 = 65535)))
  | none => false

/-- Emit the groups of an IPv6 address from group `i` with `rem` groups left,
byte 58 being the colon. -/
def emitGroups (rdata : List Byte) (ws : List Nat) (best : Option (Nat × Nat)) :
    Nat → Nat → List Byte
  | 0, _ => []
  | rem + 1, i =>
    if runCovers best i then
      (if runBase best i then [58] else []) ++ emitGroups rdata ws best rem (i + 1)
    else
      (if i ≠ 0 then [58] else []) ++
      (if i = 6 ∧ v4Embedded best ws = true then renderIPv4 (rdata.drop 12)
       else natHexBytes (ws.getD i 0) ++ emitGroups rdata ws best rem (i + 1))

/-- `socket.inet_ntop(socket.AF_INET6, rdata)`: canonical compressed lowercase
text of a 16-byte rdata, after the BSD `inet_ntop6` algorithm. -/
def renderIPv6 (rdata : List Byte) : List Byte :=
  emitGroups rdata ((List.range 8).map (fun i => get16 rdata (2 * i)))
      (bestZeroRun ((List.range 8).map (fun i => get16 rdata (2 * i)))) 8 0
    ++ (match bestZeroRun ((List.range 8).map (fun i => get16 rdata (2 * i))) with
        | some (b, l) => if b + l = 8 then [58] else []
        | none => [])

/-- The question-skipping loop of `extract_answer_ips`: decode each question
name, then require four more bytes (qtype/qclass); `none` models the early
`return []`. -/
def skipQuestions (data : List Byte) : Nat → Nat → Option Nat
  | offset, 0 => some offset
  | offset, n + 1 =>
    if (decode_dns_name data offset).2 + 4 > data.length then none
    else skipQuestions data ((decode_dns_name data offset).2 + 4) n

/-- The answer-reading loop of `extract_answer_ips`: decode the record name,
read type/class/ttl/rdlength (10 bytes), slice the rdata, and collect the
rendered address of class-IN A and AAAA records; a record that would read past
the buffer stops the loop with what was collected so far. -/
def answersLoop (data : List Byte) : Nat → Nat → Finset (List Byte) → Finset (List Byte)
  | _, 0, ips => ips
  | offset, n + 1, ips =>
    if (decode_dns_name data offset).2 + 10 > data.length then ips
    else if (decode_dns_name data offset).2 + 10 + get16 data ((decode_dns_name data offset).2 + 8)
        > data.length then ips
    else
      answersLoop data
        ((decode_dns_name data offset).2 + 10 + get16 data ((decode_dns_name data offset).2 + 8))
        n
        (if get16 data ((decode_dns_name data offset).2 + 2) ≠ 1 then ips
         else if get16 data (decode_dns_name data offset).2 = 1
             ∧ get16 data ((decode_dns_name data offset).2 + 8) = 4 then
           insert (renderIPv4 ((data.drop ((decode_dns_name data offset).2 + 10)).take
             (get16 data ((decode_dns_name data offset).2 + 8)))) ips
         else if get16 data (decode_dns_name data offset).2 = 28
             ∧ get16 data ((decode_dns_name data offset).2 + 8) = 16 then
           insert (renderIPv6 ((data.drop ((decode_dns_name data offset).2 + 10)).take
             (get16 data ((decode_dns_name data offset).2 + 8)))) ips
         else ips)

/-- `sorted(...)` of a set of byte strings: Python sorts strings by code
point, which on these ASCII renderings is the lexicographic order on bytes. -/
def ipSorted (s : Finset (List Byte)) : List (List Byte) :=
  s.sort (fun a b => a ≤ b)

/-- Translation of `extract_answer_ips`: header guard, skip the question
section, then run the answer loop and return the sorted set. -/
def extract_answer_ips (payload : List Byte) : List (List Byte) :=
  if payload.length < 12 then []
  else
    match skipQuestions payload 12 (get16 payload 4) with
    | none => []
    | some off => ipSorted (answersLoop payload off (get16 payload 6) ∅)

/-- C8: a synthesized SERVFAIL always decodes to an empty IP list (its answer
count is forced to zero), so the middleman logs a SERVFAIL exchange as a
zero-IP event. -/
theorem servfail_no_ips_c8 : ∀ q r : List Byte,
    make_servfail q = some r → extract_answer_ips r = [] := by
  intro q r hr
  have h12 : 12 ≤ q.length := by
    by_contra h
    rw [make_servfail, if_pos (Nat.lt_of_not_le h)] at hr
    exact Option.noConfusion hr
  obtain ⟨b0, b1, b2, b3, b4, b5, b6, b7, b8, b9, b10, b11, rest, rfl⟩ :=
    exists_header_split q h12
  simp only [make_servfail] at hr
  rw [if_neg (by simp)] at hr
  obtain rfl : _ = r := Option.some_injective _ hr
  have han : get16 (b0 :: b1 :: 0x81 :: 0x82 :: b4 :: b5 :: 0 :: 0 :: 0 :: 0 :: 0 :: 0 :: rest) 6
      = 0 := by simp [get16]
  show extract_answer_ips (b0 :: b1 :: 0x81 :: 0x82 :: b4 :: b5 :: 0 :: 0 :: 0 :: 0 :: 0 :: 0 :: rest) = []
  unfold extract_answer_ips
  rw [if_neg (by simp)]
  cases hsq : skipQuestions (b0 :: b1 :: 0x81 :: 0x82 :: b4 :: b5 :: 0 :: 0 :: 0 :: 0 :: 0 :: 0 :: rest) 12
      (get16 (b0 :: b1 :: 0x81 :: 0x82 :: b4 :: b5 :: 0 :: 0 :: 0 :: 0 :: 0 :: 0 :: rest) 4) with
  | none => rfl
  | some off =>
    rw [han]
    show ipSorted (∅ : Finset (List Byte)) = []
    exact Finset.sort_empty _

/-- C8 witness: the 12-byte all-zero query. -/
theorem servfail_no_ips_c8_witness :
    make_servfail [0, 0, 0, 0, 0, 0, 0, 0, 0, 0, 0, 0]
      = some [0, 0, 0x81, 0x82, 0, 0, 0, 0, 0, 0, 0, 0] ∧
    extract_answer_ips [0, 0, 0x81, 0x82, 0, 0, 0, 0, 0, 0, 0, 0] = [] :=
  ⟨by decide,
    servfail_no_ips_c8 [0, 0, 0, 0, 0, 0, 0, 0, 0, 0, 0, 0]
      [0, 0, 0x81, 0x82, 0, 0, 0, 0, 0, 0, 0, 0] (by decide)⟩

/-! ## Wire encodings used to state C4 -/

/-- Big-endian 16-bit encoding (`struct.pack("!H", n)` for `n < 65536`). -/
def enc16 (n : Nat) : List Byte := [byteOf (n / 256), byteOf n]

/-- Big-endian 32-bit encoding (the TTL field; its value is never read back). -/
def enc32 (n : Nat) : List Byte :=
  [byteOf (n / 16777216), byteOf (n / 65536), byteOf (n / 256), byteOf n]

/-- Uncompressed wire encoding of a name given as its labels. -/
def encName (labels : List (List Byte)) : List Byte :=
  labels.flatMap (fun l => byteOf l.length :: l) ++ [0]

/-- A question-section entry: its name labels and its four qtype/qclass bytes. -/
structure DnsQuestion where
  qname : List (List Byte)
  qmeta : List Byte

/-- An answer-section resource record. -/
structure DnsRR where
  rname : List (List Byte)
  rtype : Nat
  rclass : Nat
  rttl : Nat
  rdata : List Byte

def encQuestion (q : DnsQuestion) : List Byte := encName q.qname ++ q.qmeta

def encRR (r : DnsRR) : List Byte :=
  encName r.rname ++ enc16 r.rtype ++ enc16 r.rclass ++ enc32 r.rttl
    ++ enc16 r.rdata.length ++ r.rdata

/-- A DNS response serialized from its parts, with an explicitly declared
answer count (which may overstate the number of records present). -/
def encResponse (tid flags ns ar ancount : Nat) (qs : List DnsQuestion)
    (ans : List DnsRR) : List Byte :=
  enc16 tid ++ enc16 flags ++ enc16 qs.length ++ enc16 ancount ++ enc16 ns ++ enc16 ar
    ++ qs.flatMap encQuestion ++ ans.flatMap encRR

/-- The textual address a record contributes: class-IN A records with 4-byte
rdata and class-IN AAAA records with 16-byte rdata, everything else skipped. -/
def renderRR (r : DnsRR) : Option (List Byte) :=
  if r.rclass ≠ 1 then none
  else if r.rtype = 1 ∧ r.rdata.length = 4 then some (renderIPv4 r.rdata)
  else if r.rtype = 28 ∧ r.rdata.length = 16 then some (renderIPv6 r.rdata)
  else none

theorem byteOf_val_of_lt {n : Nat} (h : n < 256) : (byteOf n).val = n :=
  Nat.mod_eq_of_lt h

theorem and192_eq_zero_of_lt64 {n : Nat} (h : n < 64) : n &&& 192 = 0 := by
  have h64 : ∀ m : Fin 64, m.val &&& 192 = 0 := by decide
  exact h64 ⟨n, h⟩

theorem encName_cons (l : List Byte) (ls : List (List Byte)) :
    encName (l :: ls) = byteOf l.length :: (l ++ encName ls) := by
  simp [encName]

theorem encName_len_ge (labels : List (List Byte)) :
    labels.length + 1 ≤ (encName labels).length := by
  induction labels with
  | nil => simp [encName]
  | cons l ls ih =>
    rw [encName_cons]
    simp only [List.length_cons, List.length_append]
    omega

/-- Running the decoder loop over an uncompressed serialized name appends its
labels to the accumulator and leaves both offsets just past the name. -/
theorem decodeGoF_plain : ∀ (labels : List (List Byte)) (fuel : Nat)
    (pre post : List Byte) (e : Nat) (seen : List Nat) (acc : List (List Byte))
    (rds js : List Nat),
    labels.length + 1 ≤ fuel →
    (∀ l ∈ labels, 0 < l.length ∧ l.length ≤ 63) →
    ∃ rds2, decodeGoF (pre ++ (encName labels ++ post)) fuel pre.length e false seen acc rds js
      = ⟨acc ++ labels, pre.length + (encName labels).length,
         pre.length + (encName labels).length, rds2, js⟩ := by
  intro labels
  induction labels with
  | nil =>
    intro fuel pre post e seen acc rds js hfuel hv
    obtain ⟨f, rfl⟩ : ∃ f, fuel = f + 1 := ⟨fuel - 1, by omega⟩
    refine ⟨rds ++ [pre.length], ?_⟩
    have hdata : (pre ++ (encName [] ++ post)) = pre ++ ((0 : Byte) :: post) := by
      simp [encName]
    rw [hdata]
    have hget : ((pre ++ ((0 : Byte) :: post)).getD pre.length 0).val = 0 := by
      have := getD_append_add pre ((0 : Byte) :: post) 0 0
      rw [Nat.add_zero] at this
      rw [this]
      rfl
    have hc : pre.length < (pre ++ ((0 : Byte) :: post)).length := by simp
    simp only [decodeGoF]
    rw [if_pos hc, if_pos hget]
    simp [encName]
  | cons l ls ih =>
    intro fuel pre post e seen acc rds js hfuel hv
    obtain ⟨f, rfl⟩ : ∃ f, fuel = f + 1 := ⟨fuel - 1, by omega⟩
    have hl : 0 < l.length ∧ l.length ≤ 63 := hv l (List.mem_cons_self _ _)
    have hdata : (pre ++ (encName (l :: ls) ++ post))
        = pre ++ (byteOf l.length :: (l ++ (encName ls ++ post))) := by
      rw [encName_cons]
      simp [List.append_assoc]
    rw [hdata]
    have hget : ((pre ++ (byteOf l.length :: (l ++ (encName ls ++ post)))).getD
        pre.length 0).val = l.length := by
      have := getD_append_add pre (byteOf l.length :: (l ++ (encName ls ++ post))) 0 0
      rw [Nat.add_zero] at this
      rw [this]
      exact byteOf_val_of_lt (by omega)
    have hlen : (pre ++ (byteOf l.length :: (l ++ (encName ls ++ post)))).length
        = pre.length + 1 + l.length + (encName ls).length + post.length := by
      simp
      omega
    have hc : pre.length < (pre ++ (byteOf l.length :: (l ++ (encName ls ++ post)))).length := by
      omega
    have henc1 : 1 ≤ (encName ls).length := le_trans (by omega) (encName_len_ge ls)
    simp only [decodeGoF]
    rw [if_pos hc, if_neg (by rw [hget]; omega), if_neg (by
        rw [hget]
        rw [and192_eq_zero_of_lt64 (by omega)]
        omega),
      if_neg (not_not_intro (by rw [hget]; exact and192_eq_zero_of_lt64 (by omega))),
      if_pos (by rw [hget]; omega)]
    rw [hget]
    have hslice : ((pre ++ (byteOf l.length :: (l ++ (encName ls ++ post)))).drop
        (pre.length + 1)).take l.length = l := by
      have harr : pre ++ (byteOf l.length :: (l ++ (encName ls ++ post)))
          = (pre ++ [byteOf l.length]) ++ (l ++ (encName ls ++ post)) := by
        simp
      rw [harr]
      have hlen2 : (pre ++ [byteOf l.length]).length = pre.length + 1 := by simp
      rw [← hlen2, drop_append_len]
      exact List.take_left l _
    rw [hslice]
    have harr2 : pre ++ (byteOf l.length :: (l ++ (encName ls ++ post)))
        = (pre ++ (byteOf l.length :: l)) ++ (encName ls ++ post) := by
      simp
    have hlen3 : (pre ++ (byteOf l.length :: l)).length = pre.length + 1 + l.length := by
      simp
      omega
    rw [harr2]
    have hfuel2 : ls.length + 1 ≤ f := by
      simp only [List.length_cons] at hfuel
      omega
    have hv2 : ∀ x ∈ ls, 0 < x.length ∧ x.length ≤ 63 :=
      fun x hx => hv x (List.mem_cons_of_mem _ hx)
    obtain ⟨rds2, hrun⟩ := ih f (pre ++ (byteOf l.length :: l)) post
      (pre.length + 1 + l.length) seen (acc ++ [l])
      (rds ++ pre.length :: (List.range l.length).map (fun i => pre.length + 1 + i)) js
      hfuel2 hv2
    rw [hlen3] at hrun
    refine ⟨rds2, ?_⟩
    simp only [Bool.false_eq_true, if_false]
    rw [hrun]
    have hfields : acc ++ [l] ++ ls = acc ++ l :: ls := by simp
    have hlc : (encName (l :: ls)).length = 1 + l.length + (encName ls).length := by
      rw [encName_cons]
      simp
      omega
    have hnum : pre.length + 1 + l.length + (encName ls).length
        = pre.length + (encName (l :: ls)).length := by
      rw [hlc]
      omega
    rw [hfields, hnum]

/-- A full `decode_dns_name` call on an uncompressed serialized name: it
returns the assembled name and the offset just past the name. -/
theorem decode_name_plain (labels : List (List Byte)) (pre post : List Byte)
    (hv : ∀ l ∈ labels, 0 < l.length ∧ l.length ≤ 63) :
    decode_dns_name (pre ++ (encName labels ++ post)) pre.length
      = (nameFromLabels labels, pre.length + (encName labels).length) := by
  have hgen := encName_len_ge labels
  have hfuel : labels.length + 1 ≤ nameFuel (pre ++ (encName labels ++ post)) := by
    have h2 : (encName labels).length ≤ (pre ++ (encName labels ++ post)).length := by
      simp
      omega
    unfold nameFuel
    omega
  obtain ⟨rds2, hrun⟩ := decodeGoF_plain labels _ pre post pre.length [] [] [] [] hfuel hv
  unfold decode_dns_name
  rw [hrun]
  dsimp only
  rw [if_neg (by omega)]
  simp

/-- `decode_dns_name` with the offset at or past the end of the buffer returns
an empty name and leaves the offset unchanged. -/
theorem decode_name_at_end (data : List Byte) (offset : Nat) (h : data.length ≤ offset) :
    decode_dns_name data offset = ([], offset) := by
  unfold decode_dns_name
  rw [decodeGoF_oob _ _ _ _ _ _ _ _ _ h]
  dsimp only
  rw [if_pos le_rfl]
  rfl

/-- Skipping a serialized question section lands exactly past it. -/
theorem skipQuestions_spec : ∀ (qs : List DnsQuestion) (pre rest : List Byte),
    (∀ q ∈ qs, (∀ l ∈ q.qname, 0 < l.length ∧ l.length ≤ 63) ∧ q.qmeta.length = 4) →
    skipQuestions (pre ++ (qs.flatMap encQuestion ++ rest)) pre.length qs.length
      = some (pre.length + (qs.flatMap encQuestion).length) := by
  intro qs
  induction qs with
  | nil =>
    intro pre rest hv
    simp [skipQuestions]
  | cons q qs ih =>
    intro pre rest hv
    have hq := hv q (List.mem_cons_self _ _)
    have hdata : pre ++ ((q :: qs).flatMap encQuestion ++ rest)
        = pre ++ (encName q.qname ++ (q.qmeta ++ (qs.flatMap encQuestion ++ rest))) := by
      simp [encQuestion]
    rw [hdata, List.length_cons]
    show skipQuestions _ pre.length (qs.length + 1) = _
    rw [skipQuestions]
    rw [decode_name_plain q.qname pre (q.qmeta ++ (qs.flatMap encQuestion ++ rest)) hq.1]
    dsimp only
    have hlen : (pre ++ (encName q.qname ++ (q.qmeta ++ (qs.flatMap encQuestion ++ rest)))).length
        = pre.length + (encName q.qname).length + 4
          + (qs.flatMap encQuestion).length + rest.length := by
      simp [hq.2]
      omega
    rw [if_neg (by omega)]
    have harr : pre ++ (encName q.qname ++ (q.qmeta ++ (qs.flatMap encQuestion ++ rest)))
        = (pre ++ encName q.qname ++ q.qmeta) ++ (qs.flatMap encQuestion ++ rest) := by
      simp
    have hlen2 : (pre ++ encName q.qname ++ q.qmeta).length
        = pre.length + (encName q.qname).length + 4 := by
      simp [hq.2]
      omega
    have hoff : pre.length + (encName q.qname).length + 4
        = (pre ++ encName q.qname ++ q.qmeta).length := hlen2.symm
    rw [harr, hoff, ih (pre ++ encName q.qname ++ q.qmeta) rest
      (fun x hx => hv x (List.mem_cons_of_mem _ hx))]
    rw [hlen2]
    have : (((q :: qs).flatMap encQuestion).length)
        = (encName q.qname).length + 4 + (qs.flatMap encQuestion).length := by
      simp [encQuestion, hq.2]
      omega
    rw [this]
    congr 1
    omega

/-- Reading back a 16-bit field at the start of the suffix. -/
theorem get16_at (pre rest : List Byte) (n : Nat) (hn : n < 65536) :
    get16 (pre ++ (enc16 n ++ rest)) pre.length = n := by
  unfold get16
  have h0 := getD_append_add pre (enc16 n ++ rest) 0 0
  rw [Nat.add_zero] at h0
  have h1 := getD_append_add pre (enc16 n ++ rest) 1 0
  rw [h0, h1]
  simp only [enc16, List.cons_append, List.getD_cons_zero, List.getD_cons_succ]
  simp only [byteOf]
  omega

/-- With the offset at the end of the buffer the answer loop collects nothing
more, however many records the header still claims. -/
theorem answersLoop_at_end (data : List Byte) : ∀ (n : Nat) (ips : Finset (List Byte)),
    answersLoop data data.length n ips = ips := by
  intro n
  induction n with
  | zero => intro ips; rfl
  | succ m ih =>
    intro ips
    rw [answersLoop]
    rw [decode_name_at_end data data.length le_rfl]
    dsimp only
    rw [if_pos (by omega)]

/-- The accumulation step of the answer loop, phrased through `renderRR`. -/
def insStep (s : Finset (List Byte)) (r : DnsRR) : Finset (List Byte) :=
  match renderRR r with
  | some ip => insert ip s
  | none => s

/-- Well-formedness of one serialized resource record for C4. -/
def rrWF (r : DnsRR) : Prop :=
  (∀ l ∈ r.rname, 0 < l.length ∧ l.length ≤ 63) ∧
  r.rtype < 65536 ∧ r.rclass < 65536 ∧ r.rdata.length < 65536

/-- Running the answer loop over a serialized answer section folds `insStep`
over the records; surplus declared answer count (`extra`) collects nothing. -/
theorem answersLoop_spec : ∀ (ans : List DnsRR) (pre : List Byte) (extra : Nat)
    (ips : Finset (List Byte)),
    (∀ r ∈ ans, rrWF r) →
    answersLoop (pre ++ ans.flatMap encRR) pre.length (ans.length + extra) ips
      = ans.foldl insStep ips := by
  intro ans
  induction ans with
  | nil =>
    intro pre extra ips hv
    simp only [List.flatMap_nil, List.append_nil, List.length_nil, Nat.zero_add,
      List.foldl_nil]
    exact answersLoop_at_end pre extra ips
  | cons r ans ih =>
    intro pre extra ips hv
    have hr := hv r (List.mem_cons_self _ _)
    obtain ⟨hrn, hrt, hrc, hrd⟩ := hr
    have hdata : pre ++ (r :: ans).flatMap encRR
        = pre ++ (encName r.rname ++ (enc16 r.rtype ++ (enc16 r.rclass ++ (enc32 r.rttl
            ++ (enc16 r.rdata.length ++ (r.rdata ++ ans.flatMap encRR)))))) := by
      simp [encRR]
    rw [hdata, List.length_cons]
    rw [show ans.length + 1 + extra = (ans.length + extra) + 1 from by omega]
    rw [answersLoop]
    rw [decode_name_plain r.rname pre _ hrn]
    dsimp only
    have hlenD : (pre ++ (encName r.rname ++ (enc16 r.rtype ++ (enc16 r.rclass
        ++ (enc32 r.rttl ++ (enc16 r.rdata.length ++ (r.rdata ++ ans.flatMap encRR))))))).length
        = pre.length + (encName r.rname).length + 10 + r.rdata.length
          + (ans.flatMap encRR).length := by
      simp [enc16, enc32]
      omega
    rw [if_neg (by omega)]
    have hD3 : pre ++ (encName r.rname ++ (enc16 r.rtype ++ (enc16 r.rclass ++ (enc32 r.rttl
          ++ (enc16 r.rdata.length ++ (r.rdata ++ ans.flatMap encRR))))))
        = (pre ++ encName r.rname ++ enc16 r.rtype ++ enc16 r.rclass ++ enc32 r.rttl)
          ++ (enc16 r.rdata.length ++ (r.rdata ++ ans.flatMap encRR)) := by
      simp
    have hlen3 : (pre ++ encName r.rname ++ enc16 r.rtype ++ enc16 r.rclass
        ++ enc32 r.rttl).length = pre.length + (encName r.rname).length + 8 := by
      simp [enc16, enc32]
      omega
    have hgrdlen : get16 (pre ++ (encName r.rname ++ (enc16 r.rtype ++ (enc16 r.rclass
        ++ (enc32 r.rttl ++ (enc16 r.rdata.length ++ (r.rdata ++ ans.flatMap encRR)))))))
        (pre.length + (encName r.rname).length + 8) = r.rdata.length := by
      rw [hD3, ← hlen3]
      exact get16_at _ _ _ hrd
    rw [hgrdlen]
    rw [if_neg (by omega)]
    have hD1 : pre ++ (encName r.rname ++ (enc16 r.rtype ++ (enc16 r.rclass ++ (enc32 r.rttl
          ++ (enc16 r.rdata.length ++ (r.rdata ++ ans.flatMap encRR))))))
        = (pre ++ encName r.rname) ++ (enc16 r.rtype ++ (enc16 r.rclass ++ (enc32 r.rttl
          ++ (enc16 r.rdata.length ++ (r.rdata ++ ans.flatMap encRR))))) := by
      simp
    have hlen1 : (pre ++ encName r.rname).length
        = pre.length + (encName r.rname).length := by
      simp
    have hgtype : get16 (pre ++ (encName r.rname ++ (enc16 r.rtype ++ (enc16 r.rclass
        ++ (enc32 r.rttl ++ (enc16 r.rdata.length ++ (r.rdata ++ ans.flatMap encRR)))))))
        (pre.length + (encName r.rname).length) = r.rtype := by
      rw [hD1, ← hlen1]
      exact get16_at _ _ _ hrt
    have hD2 : pre ++ (encName r.rname ++ (enc16 r.rtype ++ (enc16 r.rclass ++ (enc32 r.rttl
          ++ (enc16 r.rdata.length ++ (r.rdata ++ ans.flatMap encRR))))))
        = (pre ++ encName r.rname ++ enc16 r.rtype) ++ (enc16 r.rclass ++ (enc32 r.rttl
          ++ (enc16 r.rdata.length ++ (r.rdata ++ ans.flatMap encRR)))) := by
      simp
    have hlen2 : (pre ++ encName r.rname ++ enc16 r.rtype).length
        = pre.length + (encName r.rname).length + 2 := by
      simp [enc16]
      omega
    have hgclass : get16 (pre ++ (encName r.rname ++ (enc16 r.rtype ++ (enc16 r.rclass
        ++ (enc32 r.rttl ++ (enc16 r.rdata.length ++ (r.rdata ++ ans.flatMap encRR)))))))
        (pre.length + (encName r.rname).length + 2) = r.rclass := by
      rw [hD2, ← hlen2]
      exact get16_at _ _ _ hrc
    rw [hgtype, hgclass]
    have hD4 : pre ++ (encName r.rname ++ (enc16 r.rtype ++ (enc16 r.rclass ++ (enc32 r.rttl
          ++ (enc16 r.rdata.length ++ (r.rdata ++ ans.flatMap encRR))))))
        = (pre ++ encName r.rname ++ enc16 r.rtype ++ enc16 r.rclass ++ enc32 r.rttl
            ++ enc16 r.rdata.length) ++ (r.rdata ++ ans.flatMap encRR) := by
      simp
    have hlen4 : (pre ++ encName r.rname ++ enc16 r.rtype ++ enc16 r.rclass ++ enc32 r.rttl
        ++ enc16 r.rdata.length).length = pre.length + (encName r.rname).length + 10 := by
      simp [enc16, enc32]
      omega
    have hslice : ((pre ++ (encName r.rname ++ (enc16 r.rtype ++ (enc16 r.rclass ++ (enc32 r.rttl
        ++ (enc16 r.rdata.length ++ (r.rdata ++ ans.flatMap encRR))))))).drop
          (pre.length + (encName r.rname).length + 10)).take r.rdata.length = r.rdata := by
      rw [hD4, ← hlen4, drop_append_len]
      exact List.take_left r.rdata _
    rw [hslice]
    have hD5 : pre ++ (encName r.rname ++ (enc16 r.rtype ++ (enc16 r.rclass ++ (enc32 r.rttl
          ++ (enc16 r.rdata.length ++ (r.rdata ++ ans.flatMap encRR))))))
        = (pre ++ encName r.rname ++ enc16 r.rtype ++ enc16 r.rclass ++ enc32 r.rttl
            ++ enc16 r.rdata.length ++ r.rdata) ++ ans.flatMap encRR := by
      simp
    have hlen5 : (pre ++ encName r.rname ++ enc16 r.rtype ++ enc16 r.rclass ++ enc32 r.rttl
        ++ enc16 r.rdata.length ++ r.rdata).length
        = pre.length + (encName r.rname).length + 10 + r.rdata.length := by
      simp [enc16, enc32]
      omega
    rw [hD5, ← hlen5]
    rw [ih _ extra _ (fun x hx => hv x (List.mem_cons_of_mem _ hx))]
    rw [List.foldl_cons]
    congr 1
    unfold insStep renderRR
    split_ifs <;> rfl

/-- Folding `insStep` collects exactly the rendered addresses as a set. -/
theorem foldl_insStep_toFinset : ∀ (l : List DnsRR) (s : Finset (List Byte)),
    l.foldl insStep s = s ∪ (l.filterMap renderRR).toFinset := by
  intro l
  induction l with
  | nil => intro s; simp
  | cons r t ih =>
    intro s
    rw [List.foldl_cons, ih]
    unfold insStep
    cases h : renderRR r with
    | none => rw [List.filterMap_cons_none h]
    | some ip =>
      rw [List.filterMap_cons_some h]
      simp [Finset.union_insert, Finset.insert_union]

/-- C4: on every response serialized from a question section and an answer
section of well-formed records, `extract_answer_ips` returns the sorted set of
the textual addresses of the class-IN A (type 1, 4-byte rdata) and AAAA
(type 28, 16-byte rdata) records; records of other types or classes contribute
nothing (they are skipped, not misparsed); and a declared answer count
exceeding the records actually present (`extra > 0`, every further read would
run past the buffer) only ends the iteration early with the addresses
collected so far, never an error. -/
theorem extract_answer_ips_c4 : ∀ (tid flags ns ar extra : Nat)
    (qs : List DnsQuestion) (ans : List DnsRR),
    (∀ q ∈ qs, (∀ l ∈ q.qname, 0 < l.length ∧ l.length ≤ 63) ∧ q.qmeta.length = 4) →
    (∀ r ∈ ans, rrWF r) →
    qs.length < 65536 → ans.length + extra < 65536 →
    extract_answer_ips (encResponse tid flags ns ar (ans.length + extra) qs ans)
      = ipSorted ((ans.filterMap renderRR).toFinset) := by
  intro tid flags ns ar extra qs ans hq ha hql hal
  have hlen : ¬ (encResponse tid flags ns ar (ans.length + extra) qs ans).length < 12 := by
    simp [encResponse, enc16]
  have hD4 : encResponse tid flags ns ar (ans.length + extra) qs ans
      = (enc16 tid ++ enc16 flags) ++ (enc16 qs.length ++ (enc16 (ans.length + extra)
        ++ enc16 ns ++ enc16 ar ++ qs.flatMap encQuestion ++ ans.flatMap encRR)) := by
    simp [encResponse]
  have hqd : get16 (encResponse tid flags ns ar (ans.length + extra) qs ans) 4 = qs.length := by
    rw [hD4]
    rw [show (4 : Nat) = (enc16 tid ++ enc16 flags).length from by simp [enc16]]
    exact get16_at _ _ _ hql
  have hD6 : encResponse tid flags ns ar (ans.length + extra) qs ans
      = (enc16 tid ++ enc16 flags ++ enc16 qs.length) ++ (enc16 (ans.length + extra)
        ++ (enc16 ns ++ enc16 ar ++ qs.flatMap encQuestion ++ ans.flatMap encRR)) := by
    simp [encResponse]
  have han : get16 (encResponse tid flags ns ar (ans.length + extra) qs ans) 6
      = ans.length + extra := by
    rw [hD6]
    rw [show (6 : Nat) = (enc16 tid ++ enc16 flags ++ enc16 qs.length).length from by
      simp [enc16]]
    exact get16_at _ _ _ hal
  have hD12 : encResponse tid flags ns ar (ans.length + extra) qs ans
      = (enc16 tid ++ enc16 flags ++ enc16 qs.length ++ enc16 (ans.length + extra)
          ++ enc16 ns ++ enc16 ar) ++ (qs.flatMap encQuestion ++ ans.flatMap encRR) := by
    simp [encResponse]
  have hlen12 : (enc16 tid ++ enc16 flags ++ enc16 qs.length ++ enc16 (ans.length + extra)
      ++ enc16 ns ++ enc16 ar).length = 12 := by
    simp [enc16]
  have hskip : skipQuestions (encResponse tid flags ns ar (ans.length + extra) qs ans) 12
      qs.length = some (12 + (qs.flatMap encQuestion).length) := by
    rw [hD12, ← hlen12]
    exact skipQuestions_spec qs _ _ hq
  have hDq : encResponse tid flags ns ar (ans.length + extra) qs ans
      = (enc16 tid ++ enc16 flags ++ enc16 qs.length ++ enc16 (ans.length + extra)
          ++ enc16 ns ++ enc16 ar ++ qs.flatMap encQuestion) ++ ans.flatMap encRR := by
    simp [encResponse]
  have hlenq : (enc16 tid ++ enc16 flags ++ enc16 qs.length ++ enc16 (ans.length + extra)
      ++ enc16 ns ++ enc16 ar ++ qs.flatMap encQuestion).length
      = 12 + (qs.flatMap encQuestion).length := by
    simp [enc16]
    omega
  have hloop : answersLoop (encResponse tid flags ns ar (ans.length + extra) qs ans)
      (12 + (qs.flatMap encQuestion).length) (ans.length + extra) ∅
      = ans.foldl insStep ∅ := by
    rw [hDq, ← hlenq]
    exact answersLoop_spec ans _ extra ∅ ha
  unfold extract_answer_ips
  rw [if_neg hlen, hqd, hskip]
  dsimp only
  rw [han, hloop, foldl_insStep_toFinset, Finset.empty_union]

instance (r : DnsRR) : Decidable (rrWF r) := by
  unfold rrWF
  exact inferInstance

/-- A concrete class-IN A record with address 7.7.7.7 and a root owner name. -/
def rr0A : DnsRR := ⟨[], 1, 1, 0, [7, 7, 7, 7]⟩

/-- C4 witness: a response with no questions and one A record. -/
theorem extract_answer_ips_c4_witness :
    (∀ q ∈ ([] : List DnsQuestion),
      (∀ l ∈ q.qname, 0 < l.length ∧ l.length ≤ 63) ∧ q.qmeta.length = 4) ∧
    (∀ r ∈ [rr0A], rrWF r) ∧
    ([] : List DnsQuestion).length < 65536 ∧
    [rr0A].length + 0 < 65536 ∧
    extract_answer_ips (encResponse 0 0 0 0 ([rr0A].length + 0) [] [rr0A])
      = ipSorted (([rr0A].filterMap renderRR).toFinset) :=
  ⟨by decide, by decide, by decide, by decide,
    extract_answer_ips_c4 0 0 0 0 0 [] [rr0A] (by decide) (by decide) (by decide) (by decide)⟩

/-! ## Text helpers (Python `str` operations on ASCII, over `List Char`) -/

/-- Python `\s` for the ASCII range: space, tab, newline, carriage return,
vertical tab, form feed. -/
def isSpaceC (c : Char) : Bool :=
  c == ' ' || c == Char.ofNat 9 || c == Char.ofNat 10 || c == Char.ofNat 13
    || c == Char.ofNat 11 || c == Char.ofNat 12

/-- `str.strip` with an arbitrary character class. -/
def pyStripP (p : Char → Bool) (s : List Char) : List Char :=
  ((s.dropWhile p).reverse.dropWhile p).reverse

/-- `str.strip()`. -/
def pyStrip (s : List Char) : List Char := pyStripP isSpaceC s

/-- `str.strip(".")`. -/
def stripDotsC (s : List Char) : List Char := pyStripP (fun c => c == '.') s

/-- `str.lower` on ASCII. -/
def lowerCharAscii (c : Char) : Char :=
  if 'A' ≤ c ∧ c ≤ 'Z' then Char.ofNat (c.toNat + 32) else c

def lowerStr (s : List Char) : List Char := s.map lowerCharAscii

/-- `str.split(sep)` (single-character separator, empty parts preserved). -/
def pySplitGo (sep : Char) : List Char → List Char → List (List Char)
  | [], acc => [acc]
  | c :: rest, acc =>
    if c == sep then acc :: pySplitGo sep rest [] else pySplitGo sep rest (acc ++ [c])

def pySplit (sep : Char) (s : List Char) : List (List Char) := pySplitGo sep s []

/-- ASCII decimal rendering over characters. -/
def natDecC (n : Nat) : List Char := (natDigitsGo (n + 1) n).map (fun d => Char.ofNat (48 + d))

/-- Lowercase hex rendering over characters. -/
def natHexC (n : Nat) : List Char :=
  (natHexDigitsGo (n + 1) n).map (fun d => Char.ofNat (if d < 10 then 48 + d else 87 + d))

/-! ## `ipaddress.ip_address` round-trip used by `normalize_ip` -/

def isDigitC (c : Char) : Bool := '0' ≤ c && c ≤ '9'

def isHexDigitC (c : Char) : Bool :=
  ('0' ≤ c && c ≤ '9') || ('a' ≤ c && c ≤ 'f') || ('A' ≤ c && c ≤ 'F')

def hexValC (c : Char) : Nat :=
  if c ≤ '9' then c.toNat - 48 else if c ≤ 'F' then c.toNat - 55 else c.toNat - 87

/-- One dotted-quad octet, as `ipaddress` parses it: non-empty, all decimal
digits, at most three of them, no leading zero, value at most 255. -/
def parseOctet (s : List Char) : Option Nat :=
  if s = [] then none
  else if ¬ s.all isDigitC then none
  else if 3 < s.length then none
  else if 1 < s.length ∧ s.headD '0' = '0' then none
  else
    if 255 < s.foldl (fun a c => a * 10 + (c.toNat - 48)) 0 then none
    else some (s.foldl (fun a c => a * 10 + (c.toNat - 48)) 0)

/-- `IPv4Address` text parsing: exactly four octets. -/
def parseIPv4 (s : List Char) : Option Nat :=
  match pySplit '.' s with
  | [a, b, c, d] =>
    match parseOctet a, parseOctet b, parseOctet c, parseOctet d with
    | some x, some y, some z, some w => some (((x * 256 + y) * 256 + z) * 256 + w)
    | _, _, _, _ => none
  | _ => none

/-- `str(IPv4Address)`: dotted quad without leading zeros. -/
def renderIPv4C (v : Nat) : List Char :=
  natDecC (v / 16777216 % 256) ++ ['.'] ++ natDecC (v / 65536 % 256)
    ++ ['.'] ++ natDecC (v / 256 % 256) ++ ['.'] ++ natDecC (v % 256)

/-- `IPv6Address` scope-id splitting: at most one `%`, non-empty scope. -/
def splitScope (s : List Char) : Option (List Char × Option (List Char)) :=
  if '%' ∈ s then
    match s.dropWhile (fun c => c != '%') with
    | _ :: scope =>
      if scope = [] ∨ '%' ∈ scope then none
      else some (s.takeWhile (fun c => c != '%'), some scope)
    | [] => none
  else some (s, none)

/-- One 16-bit hextet: non-empty, hex digits, at most four of them. -/
def parseHextet (s : List Char) : Option Nat :=
  if s = [] then none
  else if ¬ s.all isHexDigitC then none
  else if 4 < s.length then none
  else some (s.foldl (fun a c => a * 16 + hexValC c) 0)

/-- Big-endian accumulation of hextet values. -/
def hextetsVal (ps : List (List Char)) : Option Nat :=
  ps.foldl (fun acc p =>
    match acc, parseHextet p with
    | some a, some v => some (a * 65536 + v)
    | _, _ => none) (some 0)

/-- `IPv6Address` text parsing (without scope): colon groups, one optional
`::`, optional embedded dotted quad in the last group. -/
def parseIPv6 (addr : List Char) : Option Nat :=
  if (pySplit ':' addr).length < 3 then none
  else
    match
      (if '.' ∈ (pySplit ':' addr).getLastD [] then
        match parseIPv4 ((pySplit ':' addr).getLastD []) with
        | none => none
        | some v4 => some ((pySplit ':' addr).dropLast
            ++ [natHexC (v4 / 65536), natHexC (v4 % 65536)])
      else some (pySplit ':' addr)) with
    | none => none
    | some parts =>
      if 9 < parts.length then none
      else
        match (List.range parts.length).filter
            (fun i => decide (0 < i) && decide (i < parts.length - 1)
              && decide (parts.getD i [] = [])) with
        | [] =>
          if parts.length ≠ 8 then none
          else if parts.getD 0 [] = [] then none
          else if parts.getLastD [] = [] then none
          else hextetsVal parts
        | [skip] =>
          if parts.getD 0 [] = [] ∧ skip ≠ 1 then none
          else if parts.getLastD [] = [] ∧ skip ≠ parts.length - 2 then none
          else
            if (if parts.getD 0 [] = [] then 0 else skip)
                + (if parts.getLastD [] = [] then 0 else parts.length - skip - 1) > 7 then none
            else
              match hextetsVal (parts.take (if parts.getD 0 [] = [] then 0 else skip)),
                  hextetsVal (parts.drop (parts.length -
                    (if parts.getLastD [] = [] then 0 else parts.length - skip - 1))) with
              | some hi, some lo =>
                some ((hi * 65536 ^ (8 - ((if parts.getD 0 [] = [] then 0 else skip)
                    + (if parts.getLastD [] = [] then 0 else parts.length - skip - 1))))
                  * 65536 ^ (if parts.getLastD [] = [] then 0 else parts.length - skip - 1) + lo)
              | _, _ => none
        | _ => none

/-- `str(IPv6Address)` (without scope): lowercase hextets with the leftmost
longest run of at least two zero groups compressed to `::`. -/
def renderIPv6C (v : Nat) : List Char :=
  match bestZeroRun ((List.range 8).map (fun i => v / 65536 ^ (7 - i) % 65536)) with
  | none => List.intercalate [':']
      (((List.range 8).map (fun i => v / 65536 ^ (7 - i) % 65536)).map natHexC)
  | some (b, l) =>
    List.intercalate [':']
      ((if b = 0 then [([] : List Char)] else [])
        ++ ((((List.range 8).map (fun i => v / 65536 ^ (7 - i) % 65536)).take b).map natHexC
          ++ [([] : List Char)]
          ++ ((((List.range 8).map (fun i => v / 65536 ^ (7 - i) % 65536)).drop (b + l)).map natHexC))
        ++ (if b + l = 8 then [([] : List Char)] else []))

/-- Translation of `normalize_ip`: strip, reject empty, parse as IPv4 then as
(possibly scoped) IPv6, and return the canonical text. -/
def normalize_ip (raw : List Char) : Option (List Char) :=
  if pyStrip raw = [] then none
  else
    match parseIPv4 (pyStrip raw) with
    | some v => some (renderIPv4C v)
    | none =>
      match splitScope (pyStrip raw) with
      | none => none
      | some (addr, scope) =>
        match parseIPv6 addr with
        | none => none
        | some v =>
          match scope with
          | none => some (renderIPv6C v)
          | some sc => some (renderIPv6C v ++ '%' :: sc)

/-! ## Event Log line grammar -/

/-- One `\[([^\]]*)\]` unit of the ordered-line regex: an opening bracket, the
longest run without a closing bracket, then the closing bracket. -/
def expectBracketed (s : List Char) : Option (List Char × List Char) :=
  match s with
  | c :: r =>
    if c = '[' then
      match r.dropWhile (fun x => x != ']') with
      | d :: rest =>
        if d = ']' then some (r.takeWhile (fun x => x != ']'), rest) else none
      | [] => none
    else none
  | [] => none

def usingWord : List Char := ['u', 's', 'i', 'n', 'g']

/-- Deterministic matcher for
`^\[(?P<domain>[^\]]*)\]\s*@\s*\[(?P<time>[^\]]*)\]\s*using\s*\[(?P<ips>[^\]]*)\]\s*$`
(each `\s*`/`[^\]]*` is maximal-munch, and no construct here can backtrack). -/
def matchOrdered (s : List Char) : Option (List Char × List Char × List Char) :=
  match expectBracketed s with
  | none => none
  | some (d, r1) =>
    match r1.dropWhile isSpaceC with
    | [] => none
    | c :: r2 =>
      if c = '@' then
        match expectBracketed (r2.dropWhile isSpaceC) with
        | none => none
        | some (t, r3) =>
          if (r3.dropWhile isSpaceC).take 5 = usingWord then
            match expectBracketed (((r3.dropWhile isSpaceC).drop 5).dropWhile isSpaceC) with
            | none => none
            | some (ips, r5) =>
              if r5.dropWhile isSpaceC = [] then some (d, t, ips) else none
          else none
      else none

/-- The IP-collection loop of `parse_ordered_line`: normalize each
comma-separated part, keep non-empty results, first occurrence only. -/
def collectIpsGo : List (List Char) → List (List Char) → List (List Char) → List (List Char)
  | [], _, acc => acc
  | p :: rest, seen, acc =>
    match normalize_ip p with
    | none => collectIpsGo rest seen acc
    | some ip =>
      if ip ≠ [] ∧ ip ∉ seen then collectIpsGo rest (ip :: seen) (acc ++ [ip])
      else collectIpsGo rest seen acc

/-- Translation of `parse_ordered_line`: strip the line, match the grammar,
then normalize the domain (strip, lower, strip dots), the time (strip) and the
IP list (split on commas, normalize, deduplicate keeping order). -/
def parse_ordered_line (line : List Char) :
    Option (List Char × List Char × List (List Char)) :=
  match matchOrdered (pyStrip line) with
  | none => none
  | some (d, t, i) =>
    some (stripDotsC (lowerStr (pyStrip d)), pyStrip t,
      if pyStrip i = [] then [] else collectIpsGo (pySplit ',' (pyStrip i)) [] [])

/-- `", ".join(ips)`. -/
def ipsText : List (List Char) → List Char
  | [] => []
  | [ip] => ip
  | ip :: rest => ip ++ ',' :: ' ' :: ipsText rest

/-- The line `record_event` writes (without its trailing newline):
`[<domain>] @ [<timestamp>] using [<comma-space-joined ips>]`.  The timestamp
is a parameter here; `record_event` fills in the wall-clock UTC time. -/
def renderEventLine (domain time : List Char) (ips : List (List Char)) : List Char :=
  ['['] ++ domain ++ [']', ' ', '@', ' ', '['] ++ time
    ++ [']', ' ', 'u', 's', 'i', 'n', 'g', ' ', '['] ++ ipsText ips ++ [']']

/-! ## The blocker: `BlockerState`, the log tailer and one main-loop iteration -/

/-- The mutable fields of the `BlockerState` dataclass (paths and the run
stamp, which never change and are not read by the tailer or the loop, are
omitted; `target_domains` is carried because `consume_new_events` matches
against it). -/
structure BlockerState where
  consumed_bytes : Nat
  total_dns_events : Nat
  youtube_dns_query_seen : Bool
  youtube_dns_returned : Bool
  youtube_events : List (List Char × List Char × List (List Char))
  youtube_ips : Finset (List Char)
  blocked_ips : Finset (List Char)
  observed_domains : Finset (List Char)
  unblocked_domains : Finset (List Char)
  cumulative_blocked_packets : Nat
  target_domains : Finset (List Char)
deriving DecidableEq

/-- `is_target_domain`: lower-case, strip dots, membership test. -/
def is_target_domain (domain : List Char) (targets : Finset (List Char)) : Bool :=
  decide (stripDotsC (lowerStr domain) ∈ targets)

/-- The per-parsed-line state update of `consume_new_events`. -/
def processEvent (st : BlockerState) (domain time : List Char)
    (ips : List (List Char)) : BlockerState :=
  let st1 := { st with total_dns_events := st.total_dns_events + 1,
                       observed_domains := insert domain st.observed_domains }
  if is_target_domain domain st1.target_domains then
    { st1 with youtube_dns_query_seen := true,
               youtube_dns_returned := if ips.isEmpty then st1.youtube_dns_returned else true,
               youtube_events := st1.youtube_events ++ [(domain, time, ips)],
               youtube_ips := st1.youtube_ips ∪ ips.toFinset }
  else { st1 with unblocked_domains := insert domain st1.unblocked_domains }

/-- The chunks successive `f.readline()` calls return: maximal runs ending in
a newline, plus a final unterminated fragment if the text does not end in a
newline. -/
def splitLinesGo : List Char → List Char → List (List Char)
  | [], acc => if acc = [] then [] else [acc]
  | c :: rest, acc =>
    if c = '\n' then (acc ++ ['\n']) :: splitLinesGo rest []
    else splitLinesGo rest (acc ++ [c])

/-- The `while True: line = f.readline()` body of `consume_new_events`: after
each readline the cursor is set to `f.tell()` (the previous offset plus the
bytes of the returned line, including a final unterminated fragment), then the
line is parsed and, when it parses, folded into the state. -/
def consumeLines : BlockerState → List (List Char) → BlockerState
  | st, [] => st
  | st, line :: rest =>
    consumeLines
      (match parse_ordered_line line with
       | none => { st with consumed_bytes := st.consumed_bytes + line.length }
       | some (d, t, ips) =>
         processEvent { st with consumed_bytes := st.consumed_bytes + line.length } d t ips)
      rest

/-- Translation of `consume_new_events` against a file whose current content
is `content`: seek to the stored cursor and consume the readline chunks of the
remainder.  (The source's early return when the log file does not yet exist is
the `content` for which nothing is readable; the file handle itself is not
modelled.) -/
def consume_new_events (content : List Char) (st : BlockerState) : BlockerState :=
  consumeLines st (splitLinesGo (content.drop st.consumed_bytes) [])

/-- `apply_anchor_rules`, with the `pfctl -f -` outcome abstracted as the
boolean `pfctlOk`: an empty IP set always succeeds (the anchor is flushed),
otherwise the rule load succeeds exactly when pfctl does.  Status messages are
not modelled. -/
def apply_anchor_rules (pfctlOk : Bool) (ips : Finset (List Char)) : Bool :=
  if ips = ∅ then true else pfctlOk

/-- One iteration of the synchronizer main loop (`youtube_ip_blocker.py`,
`main`): tail new events; when pf is ready and the accumulated target set
differs from the enforced set, fold the pre-reload packet counter into the
cumulative total and apply the anchor rules, updating `blocked_ips` to a copy
of `youtube_ips` exactly when the application succeeded.  The returned boolean
reports whether a rule application (reload) was invoked; the snapshot write at
the end of the iteration does not change the state. -/
def stepIteration (pfReady : Bool) (content : List Char) (preReloadPackets : Nat)
    (pfctlOk : Bool) (s : BlockerState) : BlockerState × Bool :=
  if pfReady = true ∧ (consume_new_events content s).youtube_ips
      ≠ (consume_new_events content s).blocked_ips then
    (if apply_anchor_rules pfctlOk (consume_new_events content s).youtube_ips then
      ({ consume_new_events content s with
          cumulative_blocked_packets :=
            (consume_new_events content s).cumulative_blocked_packets + preReloadPackets,
          blocked_ips := (consume_new_events content s).youtube_ips }, true)
    else
      ({ consume_new_events content s with
          cumulative_blocked_packets :=
            (consume_new_events content s).cumulative_blocked_packets + preReloadPackets },
        true))
  else (consume_new_events content s, false)

/-- The log tailer never touches the enforced set. -/
theorem consumeLines_blocked : ∀ (lines : List (List Char)) (st : BlockerState),
    (consumeLines st lines).blocked_ips = st.blocked_ips := by
  intro lines
  induction lines with
  | nil => intro st; rfl
  | cons line rest ih =>
    intro st
    rw [consumeLines, ih]
    cases hp : parse_ordered_line line with
    | none => rfl
    | some v =>
      obtain ⟨d, t, ips⟩ := v
      unfold processEvent
      dsimp only
      split_ifs <;> rfl

/-- The log tailer never touches the cumulative packet counter. -/
theorem consumeLines_cumulative : ∀ (lines : List (List Char)) (st : BlockerState),
    (consumeLines st lines).cumulative_blocked_packets = st.cumulative_blocked_packets := by
  intro lines
  induction lines with
  | nil => intro st; rfl
  | cons line rest ih =>
    intro st
    rw [consumeLines, ih]
    cases hp : parse_ordered_line line with
    | none => rfl
    | some v =>
      obtain ⟨d, t, ips⟩ := v
      unfold processEvent
      dsimp only
      split_ifs <;> rfl

theorem consume_blocked (content : List Char) (st : BlockerState) :
    (consume_new_events content st).blocked_ips = st.blocked_ips :=
  consumeLines_blocked _ _

theorem consume_cumulative (content : List Char) (st : BlockerState) :
    (consume_new_events content st).cumulative_blocked_packets
      = st.cumulative_blocked_packets :=
  consumeLines_cumulative _ _

/-- An initial blocker state with no targets and nothing consumed. -/
def c1Start : BlockerState := ⟨0, 0, false, false, [], ∅, ∅, ∅, ∅, 0, ∅⟩

/-- The first 15 bytes of an Event Log line whose terminator (and closing
bracket material) has not been written yet. -/
def c1Fragment : List Char := ("[a] @ [t] using").toList

/-- The rest of that line, appended by the writer later. -/
def c1Remainder : List Char := (" []" ++ "\n").toList

/-- C1 (code bug): `consume_new_events` consumes an unterminated final
fragment.  Python's `readline()` returns the fragment at EOF and `f.tell()`
then points at EOF, so `consumed_bytes` advances past the fragment's start (to
15 here, not 0 as the claim requires); once the writer appends the rest of the
line, the tailer reads only the remainder, which no longer parses, so the
event is lost for good (0 events), while a fresh read of the completed file
yields the 1 event the claim says should still be read. -/
theorem consume_partial_line_c1_bug :
    (consume_new_events c1Fragment c1Start).consumed_bytes = 15 ∧
    (consume_new_events c1Fragment c1Start).total_dns_events = 0 ∧
    (consume_new_events (c1Fragment ++ c1Remainder)
        (consume_new_events c1Fragment c1Start)).total_dns_events = 0 ∧
    (consume_new_events (c1Fragment ++ c1Remainder)
        (consume_new_events c1Fragment c1Start)).consumed_bytes = 19 ∧
    (consume_new_events (c1Fragment ++ c1Remainder) c1Start).total_dns_events = 1 := by
  decide

/-- C5: in an iteration that attempts a convergence (pf ready and the target
set differs from the enforced set after tailing): on success `blocked_ips`
becomes a copy of `youtube_ips` as of that moment — and later tailing, however
much it grows `youtube_ips`, leaves `blocked_ips` unchanged until another
convergence; on failure `blocked_ips` keeps its old value, so the inequality
`youtube_ips ≠ blocked_ips` still holds and the next cycle retries. -/
theorem converge_update_c5 : ∀ (content : List Char) (pk : Nat) (ok : Bool)
    (s : BlockerState),
    (consume_new_events content s).youtube_ips ≠ (consume_new_events content s).blocked_ips →
    (((consume_new_events content s).youtube_ips = ∅ ∨ ok = true) →
      (stepIteration true content pk ok s).1.blocked_ips
          = (consume_new_events content s).youtube_ips ∧
      ∀ c2, (consume_new_events c2 (stepIteration true content pk ok s).1).blocked_ips
          = (stepIteration true content pk ok s).1.blocked_ips) ∧
    (((consume_new_events content s).youtube_ips ≠ ∅ ∧ ok = false) →
      (stepIteration true content pk ok s).1.blocked_ips = s.blocked_ips ∧
      (stepIteration true content pk ok s).1.youtube_ips
          ≠ (stepIteration true content pk ok s).1.blocked_ips) := by
  intro content pk ok s h
  constructor
  · intro hsucc
    have happ : apply_anchor_rules ok (consume_new_events content s).youtube_ips = true := by
      unfold apply_anchor_rules
      rcases hsucc with h0 | h0
      · rw [if_pos h0]
      · split_ifs <;> simp [h0]
    constructor
    · unfold stepIteration
      rw [if_pos ⟨rfl, h⟩, if_pos happ]
    · intro c2
      unfold stepIteration
      rw [if_pos ⟨rfl, h⟩, if_pos happ]
      exact consume_blocked _ _
  · rintro ⟨hne, hok⟩
    have happ : apply_anchor_rules ok (consume_new_events content s).youtube_ips = false := by
      unfold apply_anchor_rules
      rw [if_neg hne, hok]
    unfold stepIteration
    rw [if_pos ⟨rfl, h⟩, happ]
    simp only [Bool.false_eq_true, if_false]
    exact ⟨consume_blocked _ _, h⟩

/-- A state holding one accumulated target IP that is not yet enforced. -/
def c5State : BlockerState :=
  ⟨0, 0, false, false, [], {("142.250.1.1").toList}, ∅, ∅, ∅, 0, ∅⟩

/-- C5 witness: an empty tail and a successful pfctl application. -/
theorem converge_update_c5_witness :
    ((consume_new_events [] c5State).youtube_ips
        ≠ (consume_new_events [] c5State).blocked_ips) ∧
    ((((consume_new_events [] c5State).youtube_ips = ∅ ∨ true = true) →
      (stepIteration true [] 0 true c5State).1.blocked_ips
          = (consume_new_events [] c5State).youtube_ips ∧
      ∀ c2, (consume_new_events c2 (stepIteration true [] 0 true c5State).1).blocked_ips
          = (stepIteration true [] 0 true c5State).1.blocked_ips) ∧
    (((consume_new_events [] c5State).youtube_ips ≠ ∅ ∧ true = false) →
      (stepIteration true [] 0 true c5State).1.blocked_ips = c5State.blocked_ips ∧
      (stepIteration true [] 0 true c5State).1.youtube_ips
          ≠ (stepIteration true [] 0 true c5State).1.blocked_ips)) :=
  ⟨by decide, converge_update_c5 [] 0 true c5State (by decide)⟩

/-- C7: after a successful convergence (`blocked_ips = youtube_ips`), an
iteration whose tailing leaves `youtube_ips` unchanged performs no rule
reload: `apply_anchor_rules` is not invoked (the reload flag is false and the
state is exactly the tailed state), the enforced set stays put and the
cumulative packet counter does not advance — only the reporting reads happen. -/
theorem idempotent_no_reload_c7 : ∀ (pfReady : Bool) (content : List Char) (pk : Nat)
    (ok : Bool) (s : BlockerState),
    (consume_new_events content s).youtube_ips = s.youtube_ips →
    s.blocked_ips = s.youtube_ips →
    stepIteration pfReady content pk ok s = (consume_new_events content s, false) ∧
    (consume_new_events content s).blocked_ips = s.blocked_ips ∧
    (consume_new_events content s).cumulative_blocked_packets
      = s.cumulative_blocked_packets := by
  intro pfReady content pk ok s hy hb
  refine ⟨?_, consume_blocked _ _, consume_cumulative _ _⟩
  unfold stepIteration
  rw [if_neg ?_]
  rintro ⟨-, hne⟩
  exact hne (by rw [hy, consume_blocked, hb])

/-- C7 witness: the all-empty state with an empty tail. -/
theorem idempotent_no_reload_c7_witness :
    ((consume_new_events [] c1Start).youtube_ips = c1Start.youtube_ips) ∧
    (c1Start.blocked_ips = c1Start.youtube_ips) ∧
    (stepIteration false [] 0 false c1Start = (consume_new_events [] c1Start, false) ∧
      (consume_new_events [] c1Start).blocked_ips = c1Start.blocked_ips ∧
      (consume_new_events [] c1Start).cumulative_blocked_packets
        = c1Start.cumulative_blocked_packets) :=
  ⟨by decide, by decide, idempotent_no_reload_c7 false [] 0 false c1Start (by decide) (by decide)⟩

/-! ## Round-trip of the Event Log line grammar (C6) -/

theorem takeWhile_clean {p : Char → Bool} : ∀ (l : List Char) (c : Char) (r : List Char),
    (∀ x ∈ l, p x = true) → p c = false →
    (l ++ c :: r).takeWhile p = l := by
  intro l
  induction l with
  | nil =>
    intro c r _ hc
    simp only [List.nil_append]
    exact List.takeWhile_cons_of_neg (by simp [hc])
  | cons a l ih =>
    intro c r hl hc
    have ha : p a = true := hl a (List.mem_cons_self _ _)
    simp only [List.cons_append]
    rw [List.takeWhile_cons_of_pos (by simp [ha])]
    rw [ih c r (fun x hx => hl x (List.mem_cons_of_mem _ hx)) hc]

theorem dropWhile_clean {p : Char → Bool} : ∀ (l : List Char) (c : Char) (r : List Char),
    (∀ x ∈ l, p x = true) → p c = false →
    (l ++ c :: r).dropWhile p = c :: r := by
  intro l
  induction l with
  | nil =>
    intro c r _ hc
    simp only [List.nil_append]
    exact List.dropWhile_cons_of_neg (by simp [hc])
  | cons a l ih =>
    intro c r hl hc
    have ha : p a = true := hl a (List.mem_cons_self _ _)
    simp only [List.cons_append]
    rw [List.dropWhile_cons_of_pos (by simp [ha])]
    exact ih c r (fun x hx => hl x (List.mem_cons_of_mem _ hx)) hc

/-- The bracket matcher on a bracketed group that contains no closing
bracket. -/
theorem expectBracketed_clean (g rest : List Char) (hg : ∀ x ∈ g, x ≠ ']') :
    expectBracketed ('[' :: (g ++ ']' :: rest)) = some (g, rest) := by
  have hcl : ∀ x ∈ g, (x != ']') = true := fun x hx => by simpa using hg x hx
  have hcr : ((']' : Char) != ']') = false := by decide
  simp only [expectBracketed]
  rw [dropWhile_clean g ']' rest hcl hcr, takeWhile_clean g ']' rest hcl hcr]
  simp

theorem pyStripP_eq_self (p : Char → Bool) (l : List Char)
    (h1 : l.dropWhile p = l) (h2 : l.reverse.dropWhile p = l.reverse) :
    pyStripP p l = l := by
  unfold pyStripP
  rw [h1, h2, List.reverse_reverse]

theorem normalize_fix_ne_nil (x : List Char) (h : normalize_ip x = some x) : x ≠ [] := by
  intro hx
  subst hx
  rw [show normalize_ip [] = none from rfl] at h
  exact Option.noConfusion h

theorem normalize_ip_space (x : List Char) :
    normalize_ip (' ' :: x) = normalize_ip x := by
  have hs : pyStrip (' ' :: x) = pyStrip x := by
    unfold pyStrip pyStripP
    rw [List.dropWhile_cons_of_pos (by decide)]
  unfold normalize_ip
  rw [hs]

theorem ipsText_cons (ip : List Char) (rest : List (List Char)) :
    ipsText (ip :: rest)
      = ip ++ (if rest = [] then [] else ',' :: ' ' :: ipsText rest) := by
  cases rest <;> simp [ipsText]

theorem ipsText_mem : ∀ (ips : List (List Char)) (x : Char), x ∈ ipsText ips →
    x = ',' ∨ x = ' ' ∨ ∃ ip ∈ ips, x ∈ ip := by
  intro ips
  induction ips with
  | nil =>
    intro x hx
    simp [ipsText] at hx
  | cons ip rest ih =>
    intro x hx
    rw [ipsText_cons] at hx
    rcases List.mem_append.mp hx with h | h
    · right; right; exact ⟨ip, List.mem_cons_self _ _, h⟩
    · cases hrest : rest with
      | nil =>
        rw [hrest] at h
        simp at h
      | cons r t =>
        rw [hrest, if_neg (by simp)] at h
        rcases List.mem_cons.mp h with h1 | h1
        · left; exact h1
        · rcases List.mem_cons.mp h1 with h2 | h2
          · right; left; exact h2
          · rcases ih x (hrest ▸ h2) with h3 | h3 | ⟨j, hj, hxj⟩
            · left; exact h3
            · right; left; exact h3
            · right; right; exact ⟨j, List.mem_cons_of_mem _ (hrest ▸ hj), hxj⟩

theorem ipsText_ne_nil (ip : List Char) (rest : List (List Char)) (h : ip ≠ []) :
    ipsText (ip :: rest) ≠ [] := by
  rw [ipsText_cons]
  simp [h]

theorem getLastD_append_right (a b : List Char) (hb : b ≠ []) (d : Char) :
    (a ++ b).getLastD d = b.getLastD d := by
  rcases List.eq_nil_or_concat' b with rfl | ⟨u, c, rfl⟩
  · exact absurd rfl hb
  · rw [← List.append_assoc, List.getLastD_concat, List.getLastD_concat]

/-- The last character of a joined non-empty IP list is the last character of
its last element. -/
theorem ipsText_getLastD : ∀ (rest : List (List Char)) (ip : List Char), ip ≠ [] →
    (∀ j ∈ rest, j ≠ []) →
    ∃ j ∈ ip :: rest, (ipsText (ip :: rest)).getLastD ' ' ∈ j := by
  intro rest
  induction rest with
  | nil =>
    intro ip hip _
    rcases List.eq_nil_or_concat' ip with rfl | ⟨u, c, rfl⟩
    · exact absurd rfl hip
    · refine ⟨u ++ [c], List.mem_cons_self _ _, ?_⟩
      rw [show ipsText [u ++ [c]] = u ++ [c] from rfl, List.getLastD_concat]
      simp
  | cons r t ih =>
    intro ip hip hrest
    have hr : r ≠ [] := hrest r (List.mem_cons_self _ _)
    obtain ⟨j, hj, hmem⟩ := ih r hr (fun x hx => hrest x (List.mem_cons_of_mem _ hx))
    refine ⟨j, List.mem_cons_of_mem _ hj, ?_⟩
    rw [show ipsText (ip :: r :: t) = ip ++ ',' :: ' ' :: ipsText (r :: t) from rfl]
    rw [getLastD_append_right _ _ (by simp) _]
    rw [show (',' :: ' ' :: ipsText (r :: t)) = [',', ' '] ++ ipsText (r :: t) from rfl]
    rw [getLastD_append_right _ _ (ipsText_ne_nil r t hr) _]
    exact hmem

theorem dropWhile_rev_last (p : Char → Bool) (a : List Char) (c : Char) (hc : p c = false) :
    (a ++ [c]).reverse.dropWhile p = (a ++ [c]).reverse := by
  have h : (a ++ [c]).reverse = c :: a.reverse := by simp
  rw [h]
  exact List.dropWhile_cons_of_neg (by simp [hc])

/-- Stripping a line that starts with `[` and ends with `]` is the identity. -/
theorem pyStrip_bracketed (u : List Char) :
    pyStrip ('[' :: (u ++ [']'])) = '[' :: (u ++ [']']) := by
  apply pyStripP_eq_self
  · exact List.dropWhile_cons_of_neg (by decide)
  · have h : ('[' :: (u ++ [']'])) = (('[' :: u) ++ [']']) := by simp
    rw [h]
    exact dropWhile_rev_last _ _ _ (by decide)

/-- Stripping a joined IP list of whitespace-free non-empty entries is the
identity. -/
theorem pyStrip_ipsText (ip : List Char) (rest : List (List Char))
    (hne : ∀ j ∈ ip :: rest, j ≠ [])
    (hsp : ∀ j ∈ ip :: rest, ∀ c ∈ j, isSpaceC c = false) :
    pyStrip (ipsText (ip :: rest)) = ipsText (ip :: rest) := by
  apply pyStripP_eq_self
  · obtain ⟨c, ip', rfl⟩ :=
      List.exists_cons_of_ne_nil (hne ip (List.mem_cons_self _ _))
    rw [ipsText_cons]
    rw [show ((c :: ip') ++ (if rest = [] then [] else ',' :: ' ' :: ipsText rest))
      = c :: (ip' ++ (if rest = [] then [] else ',' :: ' ' :: ipsText rest)) from rfl]
    exact List.dropWhile_cons_of_neg (by
      simp [hsp (c :: ip') (List.mem_cons_self _ _) c (List.mem_cons_self _ _)])
  · obtain ⟨j, hj, hmem⟩ := ipsText_getLastD rest ip (hne ip (List.mem_cons_self _ _))
      (fun x hx => hne x (List.mem_cons_of_mem _ hx))
    rcases List.eq_nil_or_concat' (ipsText (ip :: rest)) with hnil | ⟨u, c, hcat⟩
    · exact absurd hnil (ipsText_ne_nil ip rest (hne ip (List.mem_cons_self _ _)))
    · rw [hcat]
      refine dropWhile_rev_last _ _ _ ?_
      have : c = (ipsText (ip :: rest)).getLastD ' ' := by
        rw [hcat, List.getLastD_concat]
      rw [← this] at hmem
      exact hsp j hj c hmem

theorem pySplitGo_no_sep : ∀ (a acc : List Char), (∀ x ∈ a, x ≠ ',') →
    pySplitGo ',' a acc = [acc ++ a] := by
  intro a
  induction a with
  | nil =>
    intro acc _
    simp [pySplitGo]
  | cons c t ih =>
    intro acc ha
    rw [pySplitGo]
    rw [if_neg (by simp [ha c (List.mem_cons_self _ _)])]
    rw [ih (acc ++ [c]) (fun x hx => ha x (List.mem_cons_of_mem _ hx))]
    simp

theorem pySplitGo_sep : ∀ (a : List Char) (acc r : List Char), (∀ x ∈ a, x ≠ ',') →
    pySplitGo ',' (a ++ ',' :: r) acc = (acc ++ a) :: pySplitGo ',' r [] := by
  intro a
  induction a with
  | nil =>
    intro acc r _
    rw [List.nil_append, pySplitGo, if_pos (by decide)]
    simp
  | cons c t ih =>
    intro acc r ha
    rw [List.cons_append, pySplitGo]
    rw [if_neg (by simp [ha c (List.mem_cons_self _ _)])]
    rw [ih (acc ++ [c]) r (fun x hx => ha x (List.mem_cons_of_mem _ hx))]
    simp

/-- Splitting the comma-space join of comma-free entries gives the first entry
and each further entry with one leading space. -/
theorem split_ipsText : ∀ (rest : List (List Char)) (ip : List Char),
    (∀ x ∈ ip, x ≠ ',') → (∀ j ∈ rest, ∀ x ∈ j, x ≠ ',') →
    pySplit ',' (ipsText (ip :: rest)) = ip :: rest.map (fun j => ' ' :: j) := by
  intro rest
  induction rest with
  | nil =>
    intro ip hip _
    rw [show ipsText [ip] = ip from rfl]
    unfold pySplit
    rw [pySplitGo_no_sep ip [] hip]
    simp
  | cons r t ih =>
    intro ip hip hrest
    rw [show ipsText (ip :: r :: t) = ip ++ ',' :: (' ' :: ipsText (r :: t)) from rfl]
    unfold pySplit
    rw [pySplitGo_sep ip [] (' ' :: ipsText (r :: t)) hip]
    have hsw : (' ' :: ipsText (r :: t)) = ipsText ((' ' :: r) :: t) := by
      cases t <;> rfl
    rw [hsw]
    have hih := ih (' ' :: r)
      (by
        intro x hx
        rcases List.mem_cons.mp hx with rfl | hx2
        · decide
        · exact hrest r (List.mem_cons_self _ _) x hx2)
      (fun j hj => hrest j (List.mem_cons_of_mem _ hj))
    unfold pySplit at hih
    rw [hih]
    simp

/-- The dedup-preserving collection loop on a split whose parts normalize to
the (pairwise distinct, unseen) IPs themselves. -/
theorem collect_spaced : ∀ (rest : List (List Char)) (p0 ip : List Char)
    (seen acc : List (List Char)),
    normalize_ip p0 = some ip → normalize_ip ip = some ip →
    (∀ j ∈ rest, normalize_ip j = some j) →
    (ip :: rest).Nodup → (∀ x ∈ ip :: rest, x ∉ seen) →
    collectIpsGo (p0 :: rest.map (fun j => ' ' :: j)) seen acc = acc ++ ip :: rest := by
  intro rest
  induction rest with
  | nil =>
    intro p0 ip seen acc hp0 hfix _ _ hseen
    rw [show (p0 :: ([] : List (List Char)).map (fun j => ' ' :: j)) = [p0] from rfl]
    rw [collectIpsGo, hp0]
    dsimp only
    rw [if_pos ⟨normalize_fix_ne_nil ip hfix, hseen ip (List.mem_cons_self _ _)⟩]
    rfl
  | cons r t ih =>
    intro p0 ip seen acc hp0 hfix hrest hnd hseen
    rw [List.map_cons, collectIpsGo, hp0]
    dsimp only
    rw [if_pos ⟨normalize_fix_ne_nil ip hfix, hseen ip (List.mem_cons_self _ _)⟩]
    have hr : normalize_ip r = some r := hrest r (List.mem_cons_self _ _)
    have hsp : normalize_ip (' ' :: r) = some r := by rw [normalize_ip_space]; exact hr
    have hih := ih (' ' :: r) r (ip :: seen) (acc ++ [ip]) hsp hr
      (fun j hj => hrest j (List.mem_cons_of_mem _ hj))
      (List.Nodup.of_cons hnd)
      (by
        intro x hx hmem
        rcases List.mem_cons.mp hmem with rfl | hx2
        · exact (List.nodup_cons.mp hnd).1 hx
        · exact hseen x (List.mem_cons_of_mem _ hx) hx2)
    rw [hih]
    simp

/-- C6 as stated fails: an `EventRecord` whose domain is the single bracket-free
character `A` renders to `[A] @ [t] using []`, which re-parses to the
lower-cased domain `a`, not the original tuple. -/
theorem roundtrip_c6_counterexample :
    parse_ordered_line (renderEventLine ['A'] ['t'] [])
      = some (['a'], ['t'], []) ∧ (['a'] : List Char) ≠ ['A'] := by
  decide

/-- C6 amended: rendering an EventRecord and re-parsing it yields the identical
tuple provided the record is in the log's canonical form: the domain has no
bracket characters and is fixed by strip/lower/strip-dots, the timestamp has
no `]` and is fixed by strip, and each IP is fixed by `normalize_ip` (its
canonical text), contains no `]`, comma or whitespace, and the IPs are
pairwise distinct. -/
theorem roundtrip_c6_amended : ∀ (domain time : List Char) (ips : List (List Char)),
    (∀ c ∈ domain, c ≠ ']' ∧ c ≠ '[') →
    stripDotsC (lowerStr (pyStrip domain)) = domain →
    (∀ c ∈ time, c ≠ ']') →
    pyStrip time = time →
    (∀ ip ∈ ips, normalize_ip ip = some ip ∧
      ∀ c ∈ ip, c ≠ ']' ∧ c ≠ ',' ∧ isSpaceC c = false) →
    ips.Nodup →
    parse_ordered_line (renderEventLine domain time ips) = some (domain, time, ips) := by
  intro domain time ips hdom hdomfix htime htimefix hips hnd
  have hL : renderEventLine domain time ips
      = '[' :: ((domain ++ ']' :: ' ' :: '@' :: ' ' :: '[' :: time
          ++ ']' :: ' ' :: 'u' :: 's' :: 'i' :: 'n' :: 'g' :: ' ' :: '[' :: ipsText ips)
        ++ [']']) := by
    simp [renderEventLine]
  have hL1 : pyStrip (renderEventLine domain time ips)
      = renderEventLine domain time ips := by
    rw [hL]
    exact pyStrip_bracketed _
  have hL2 : renderEventLine domain time ips
      = '[' :: (domain ++ ']' :: (' ' :: '@' :: ' ' :: '[' :: (time
          ++ ']' :: (' ' :: 'u' :: 's' :: 'i' :: 'n' :: 'g' :: ' ' :: '['
            :: (ipsText ips ++ [']']))))) := by
    simp [renderEventLine]
  have hipsnr : ∀ x ∈ ipsText ips, x ≠ ']' := by
    intro x hx
    rcases ipsText_mem ips x hx with rfl | rfl | ⟨j, hj, hxj⟩
    · decide
    · decide
    · exact ((hips j hj).2 x hxj).1
  unfold parse_ordered_line
  rw [hL1, hL2]
  unfold matchOrdered
  rw [expectBracketed_clean domain _ (fun c hc => (hdom c hc).1)]
  dsimp only
  rw [List.dropWhile_cons_of_pos (by decide), List.dropWhile_cons_of_neg (by decide)]
  dsimp only
  rw [if_pos rfl]
  rw [List.dropWhile_cons_of_pos (by decide), List.dropWhile_cons_of_neg (by decide)]
  rw [expectBracketed_clean time _ htime]
  dsimp only
  rw [List.dropWhile_cons_of_pos (by decide), List.dropWhile_cons_of_neg (by decide)]
  rw [if_pos (show ('u' :: 's' :: 'i' :: 'n' :: 'g' :: ' ' :: '['
    :: (ipsText ips ++ [']'])).take 5 = usingWord from rfl)]
  rw [show ('u' :: 's' :: 'i' :: 'n' :: 'g' :: ' ' :: '[' :: (ipsText ips ++ [']'])).drop 5
    = ' ' :: '[' :: (ipsText ips ++ [']']) from rfl]
  rw [List.dropWhile_cons_of_pos (by decide), List.dropWhile_cons_of_neg (by decide)]
  rw [expectBracketed_clean (ipsText ips) [] hipsnr]
  dsimp only
  rw [if_pos (show (([] : List Char)).dropWhile isSpaceC = [] from rfl)]
  dsimp only
  rw [hdomfix, htimefix]
  cases ips with
  | nil => rfl
  | cons ip rest =>
    have hne : ∀ j ∈ ip :: rest, j ≠ [] := fun j hj =>
      normalize_fix_ne_nil j (hips j hj).1
    have hsp : ∀ j ∈ ip :: rest, ∀ c ∈ j, isSpaceC c = false := fun j hj c hc =>
      ((hips j hj).2 c hc).2.2
    rw [pyStrip_ipsText ip rest hne hsp]
    rw [if_neg (ipsText_ne_nil ip rest (hne ip (List.mem_cons_self _ _)))]
    rw [split_ipsText rest ip
      (fun x hx => ((hips ip (List.mem_cons_self _ _)).2 x hx).2.1)
      (fun j hj x hx => ((hips j (List.mem_cons_of_mem _ hj)).2 x hx).2.1)]
    rw [collect_spaced rest ip ip [] []
      (hips ip (List.mem_cons_self _ _)).1
      (hips ip (List.mem_cons_self _ _)).1
      (fun j hj => (hips j (List.mem_cons_of_mem _ hj)).1)
      hnd (by simp)]
    rfl

def c6Domain : List Char := ("youtube.com").toList

def c6Time : List Char := ("20250101-00:00:00").toList

def c6Ips : List (List Char) := [("142.250.1.1").toList]

/-- C6 witness: a canonical-form record with one IP round-trips exactly. -/
theorem roundtrip_c6_amended_witness :
    (∀ c ∈ c6Domain, c ≠ ']' ∧ c ≠ '[') ∧
    stripDotsC (lowerStr (pyStrip c6Domain)) = c6Domain ∧
    (∀ c ∈ c6Time, c ≠ ']') ∧
    pyStrip c6Time = c6Time ∧
    (∀ ip ∈ c6Ips, normalize_ip ip = some ip ∧
      ∀ c ∈ ip, c ≠ ']' ∧ c ≠ ',' ∧ isSpaceC c = false) ∧
    c6Ips.Nodup ∧
    parse_ordered_line (renderEventLine c6Domain c6Time c6Ips)
      = some (c6Domain, c6Time, c6Ips) :=
  ⟨by decide, by decide, by decide, by decide, by decide, by decide,
    roundtrip_c6_amended c6Domain c6Time c6Ips (by decide) (by decide) (by decide)
      (by decide) (by decide) (by decide)⟩

/-- C10 witness: each guard discharged at a concrete payload — too short, zero
question count, empty question name, and a real two-byte domain. -/
theorem extract_query_domain_nonempty_c10_witness :
    (([] : List Byte).length < 12 ∧ extract_query_domain [] = none) ∧
    (get16 [0, 0, 0, 0, 0, 0, 0, 0, 0, 0, 0, 0] 4 = 0 ∧
      extract_query_domain [0, 0, 0, 0, 0, 0, 0, 0, 0, 0, 0, 0] = none) ∧
    ((decode_dns_name [0, 0, 0, 0, 0, 1, 0, 0, 0, 0, 0, 0] 12).1 = [] ∧
      extract_query_domain [0, 0, 0, 0, 0, 1, 0, 0, 0, 0, 0, 0] = none) ∧
    (extract_query_domain [0, 0, 0, 0, 0, 1, 0, 0, 0, 0, 0, 0, 2, 97, 98, 0]
        = some [97, 98] ∧ ([97, 98] : List Byte) ≠ []) :=
  ⟨⟨by decide, (extract_query_domain_nonempty_c10 []).1 (by decide)⟩,
   ⟨by decide,
     (extract_query_domain_nonempty_c10 [0, 0, 0, 0, 0, 0, 0, 0, 0, 0, 0, 0]).2.1 (by decide)⟩,
   ⟨by decide,
     (extract_query_domain_nonempty_c10 [0, 0, 0, 0, 0, 1, 0, 0, 0, 0, 0, 0]).2.2.1 (by decide)⟩,
   ⟨by decide,
     (extract_query_domain_nonempty_c10
       [0, 0, 0, 0, 0, 1, 0, 0, 0, 0, 0, 0, 2, 97, 98, 0]).2.2.2 [97, 98] (by decide)⟩⟩
